import Mathlib

/-!
Verification of `github-file-authors` (src/src/index.js) against its
natural-language specification.

The JavaScript source is shallowly embedded below.  JavaScript `Map`s are
modelled as insertion-ordered association lists (`mapLookup` / `mapSet` /
`mapHas` mirror `Map.get` / `Map.set` / `Map.has`).  The asynchronous run of
`getAuthorsWithSetApiPromiseQueue` / `cacheFor` is modelled as a small-step
transition system (`step`) over an explicit state (`St`); a schedule (a list
of actions) selects which pending task advances, which over-approximates the
set of interleavings the Node.js event loop can produce, so invariants proved
for all schedules hold for every real execution.  Effects are logged in the
state: `apiStarts` records the GitHub commits-API requests issued inside
`createSetApiPromiseQueue`'s queue worker, `errors` records the invocations
of the error callback, `adds` records `authors.add` calls tagged with the
path index and the email that produced them.
-/

namespace GithubFileAuthors

/-! ### JavaScript `Map` model (insertion-ordered association list) -/

/-- Model of `Map.prototype.get`: value of the first (unique) entry with the key. -/
def mapLookup {α : Type} : List (String × α) → String → Option α
  | [], _ => none
  | (k', v) :: rest, k => if k' = k then some v else mapLookup rest k

/-- Model of `Map.prototype.has`. -/
def mapHas {α : Type} (m : List (String × α)) (k : String) : Bool :=
  (mapLookup m k).isSome

/-- Model of `Map.prototype.set`: overwrite in place when the key exists (keeping its
position), otherwise append a new entry at the end. -/
def mapSet {α : Type} : List (String × α) → String → α → List (String × α)
  | [], k, v => [(k, v)]
  | (k', v') :: rest, k, v =>
      if k' = k then (k, v) :: rest else (k', v') :: mapSet rest k v

/-- Keys of a map, in insertion order. -/
def mapKeys {α : Type} (m : List (String × α)) : List String :=
  m.map Prod.fst

/-- Model of `new Map(pairs)`: entries inserted left to right with `Map.set`
semantics (later values for a duplicated key overwrite the earlier ones). -/
def mapFromPairs (l : List (String × String)) : List (String × String) :=
  l.foldl (fun m p => mapSet m p.1 p.2) []

/-! ### `readCache` / `writeCache` (src/src/index.js lines 33-50)

The file system is modelled as a map from path to the persisted sequence of
`[email, handle]` pairs.  `JSON.stringify` of the spread pair array and
`JSON.parse` of the file body belong to the runtime's serialization of a
string-pair array, an external collaborator per the spec (§1 "out of scope:
serializing/deserializing the persistent cache file"); the file body is
therefore modelled directly as the pair sequence it denotes. -/

structure FileSystem where
  files : List (String × List (String × String))
deriving DecidableEq

/-- Store a file (overwrite or create). -/
def fsWrite (fs : FileSystem) (p : String) (content : List (String × String)) :
    FileSystem :=
  ⟨mapSet fs.files p content⟩

/-- Read a file if it exists. -/
def fsRead (fs : FileSystem) (p : String) : Option (List (String × String)) :=
  mapLookup fs.files p

/-- Model of `[...cache]`: the spread of a JS `Map` is its entry sequence in insertion
order; on this representation it is the identity. -/
def toPersistable (cache : List (String × String)) : List (String × String) :=
  cache

/-- Model of `writeCache(cache, cachePath)`: `if (!cachePath) throw Error('The cache
path is empty.')`, then `fs.writeFile(cachePath, JSON.stringify([...cache]))`.
A missing argument (JS `undefined`) is modelled as `none`; both it and the
empty string are falsey. -/
def writeCache (cache : List (String × String)) (cachePath : Option String)
    (fs : FileSystem) : Except String FileSystem :=
  match cachePath with
  | none => .error ("The cache path is empty.")
  | some p =>
      if p = "" then .error ("The cache path is empty.")
      else .ok (fsWrite fs p (toPersistable cache))

/-- Model of `readCache(cachePath)`: `if (!cachePath) throw Error('The cache path is
empty.')`, then `new Map(JSON.parse((await fs.readFile(cachePath)).toString()))`;
a missing file rejects with the file-system error. -/
def readCache (cachePath : Option String) (fs : FileSystem) :
    Except String (List (String × String)) :=
  match cachePath with
  | none => .error ("The cache path is empty.")
  | some p =>
      if p = "" then .error ("The cache path is empty.")
      else
        match fsRead fs p with
        | some content => .ok (mapFromPairs content)
        | none => .error ("ENOENT: no such file or directory, open " ++ p)

/-! ### `checkRepo` (src/src/index.js lines 52-54) -/

/-- One character of the regex class `[A-Za-z0-9_.-]`. -/
def slugChar (c : Char) : Bool :=
  c.isAlpha || c.isDigit || c = '_' || c = '.' || c = '-'

/-- The regex test `/^[A-Za-z0-9_.-]+\/[A-Za-z0-9_.-]+$/.test(repo)`.
Because `'/'` is not in the character class, the regex is matched by
greedily consuming class characters, requiring a `'/'`, and requiring the
(nonempty) remainder to consist of class characters. -/
def repoMatches (repo : String) : Bool :=
  match repo.data.dropWhile slugChar with
  | '/' :: rest =>
      !(repo.data.takeWhile slugChar).isEmpty && !rest.isEmpty &&
        rest.all slugChar
  | _ => false

/-- Model of `checkRepo(repo)`: `assert` throws on a failed match, synchronously. -/
def checkRepo (repo : String) : Except String Unit :=
  if repoMatches repo then .ok () else
    .error ("Invalid repository name: " ++ repo)

/-- The spec's wording of the slug pattern: two nonempty runs of
`[A-Za-z0-9_.-]` joined by a single `'/'`.  Stated independently of
`repoMatches` and proved equivalent to it. -/
def SlugSpec (repo : String) : Prop :=
  ∃ a b : List Char, a ≠ [] ∧ b ≠ [] ∧ (∀ c ∈ a, slugChar c = true) ∧
    (∀ c ∈ b, slugChar c = true) ∧ repo.data = a ++ '/' :: b

/-! ### Error callback dispatch (src/src/index.js lines 56-65) -/

/-- The JS value supplied as `configs.onerror` (`undef` = the option is
absent or explicitly `undefined`; `funcV` = a function, identified by a tag;
`strV` = a string). -/
inductive OnErrorOpt
  | undef
  | strV (s : String)
  | funcV (f : Nat)
deriving DecidableEq

/-- Which callback `getErrorCallback` hands back. -/
inductive ErrorCallback
  | defaultOnError
  | suppliedFn (f : Nat)
  | noop
deriving DecidableEq

/-- Model of `defaultOnError(sha, email, error)`: the line written to `console.error`. -/
def defaultOnErrorMessage (sha email error : String) : String :=
  "Failed to get the author of " ++ sha ++ " with the email <" ++ email ++
    ">: " ++ error

/-- Model of `getErrorCallback(onerror)`: `if (onerror === 'undefined') return
defaultOnError; if (typeof onerror === 'function') return onerror;
return () => {};`.  Note the first test compares with the *string*
`'undefined'`. -/
def getErrorCallback (onerror : OnErrorOpt) : ErrorCallback :=
  if onerror = .strV ("undefined") then .defaultOnError
  else
    match onerror with
    | .funcV f => .suppliedFn f
    | _ => .noop

/-! ### Token handling (src/src/index.js lines 68 and 77-82) -/

/-- A JavaScript value, as far as the token logic distinguishes them. -/
inductive JsVal
  | undef
  | null
  | jsStr (s : String)
  | jsNum (n : Int)
  | jsBool (b : Bool)
deriving DecidableEq

/-- JavaScript truthiness (restricted to `JsVal`). -/
def jsFalsey : JsVal → Bool
  | .undef => true
  | .null => true
  | .jsStr s => s = ""
  | .jsNum n => n = 0
  | .jsBool b => !b

/-- Model of the destructuring default for `configs.token` (line 68): the destructuring
default applies when the property is absent or `undefined`; the environment
variable is either unset (`none`, giving `undefined`) or a string. -/
def destructuredToken (tokenOpt : Option JsVal) (env : Option String) : JsVal :=
  match tokenOpt with
  | none =>
      match env with
      | some s => .jsStr s
      | none => .undef
  | some .undef =>
      match env with
      | some s => .jsStr s
      | none => .undef
  | some v => v

/-- Model of the header spread `...(typeof token === 'string' && { Authorization: `token ${token}` })`:
the Authorization header attached to the commits-API request, if any. -/
def authorizationHeader : JsVal → Option String
  | .jsStr s => some ("token " ++ s)
  | _ => none

/-! ### The run model

State machine for `getAuthorsWithSetApiPromiseQueue` (src/src/index.js lines
95-129) driven over one or more paths as `getAuthors` / `cacheFor` do
(lines 151-190): `cacheFor` shares one `promiseForEmail`, one queue and one
fresh cache across the per-path calls launched by `Promise.all`, and
`getAuthors` is the one-path instance with a caller-supplied cache. -/

/-- Outcome of `axios.get` on the representative commit of an email:
the request rejects, or it yields a response from which
`response.data?.author?.login` extracts a string (`some login`) or does not
(`none`). -/
inductive ApiBehavior
  | reject (error : String)
  | respond (login : Option String)
deriving DecidableEq

/-- What the error callback received: the caught request error (from
`.catch((error) => errorCallback(sha, email, error))`) or the literal
string `'.author.login not found in the API response'`. -/
inductive ErrDetail
  | requestError (e : String)
  | loginMissing
deriving DecidableEq

/-- Whether an error-callback invocation reported a rejected request. -/
def ErrDetail.isReq : ErrDetail → Bool
  | .requestError _ => true
  | .loginMissing => false

/-- One invocation of the error callback. -/
structure ErrEntry where
  sha : String
  email : String
  detail : ErrDetail
deriving DecidableEq

/-- A `promiseForEmail` entry: the request for the email's representative
commit is in flight, or it settled.  `settled none` is the promise of a
rejected request (the `.catch` handler makes it resolve to `undefined`);
`settled (some loginOpt)` is a response with extracted login `loginOpt`. -/
inductive PromSt
  | pending (sha : String)
  | settled (response : Option (Option String))
deriving DecidableEq

/-- Whether a `promiseForEmail` entry is still in flight. -/
def PromSt.isPending : PromSt → Bool
  | .pending _ => true
  | .settled _ => false

/-- Progress of one line worker of the per-path `async.queue` (lines
112-128): not yet run; suspended at `await setApiPromiseQueue.push(...)`;
suspended at `await promiseForEmail.get(email)`; returned. -/
inductive PC
  | start
  | awaitSet (sha email : String)
  | awaitProm (sha email : String)
  | done
deriving DecidableEq

/-- One queued history line of one path. -/
structure LTask where
  path : Nat
  line : String
  pc : PC
deriving DecidableEq

/-- The shared mutable state of a run. -/
structure St where
  /-- Paths whose `exec(git log ...)` has been spawned. -/
  gitStarted : List Nat
  /-- Paths whose `git log` output has been split into queued lines. -/
  gitDone : List Nat
  /-- The line workers spawned so far. -/
  tasks : List LTask
  /-- The `promiseForEmail` map. -/
  prom : List (String × PromSt)
  /-- The (shared) email-to-login cache, mutated in place. -/
  cache : List (String × String)
  /-- Log of `authors.add` calls: (path index, email, login). -/
  adds : List (Nat × String × String)
  /-- Log of error-callback invocations. -/
  errors : List ErrEntry
  /-- Log of issued commits-API requests: (email, representative sha). -/
  apiStarts : List (String × String)
deriving DecidableEq

/-- The state before any work: no git spawned, no tasks, empty
`promiseForEmail`, the supplied cache, empty logs. -/
def initSt (cache0 : List (String × String)) : St :=
  ⟨[], [], [], [], cache0, [], [], []⟩

/-- Model of `line.split(' ')` on the character list (JS `String.prototype.split`
with a single-character separator: empty fields are kept, `''` splits to
`['']`). -/
def splitChar (sep : Char) (l : List Char) : List (List Char) :=
  l.foldr
    (fun c acc =>
      if c = sep then [] :: acc
      else
        match acc with
        | h :: t => (c :: h) :: t
        | [] => [[c]])
    [[]]

/-- Model of `const parts = line.split(' '); if (parts.length !== 2) return;
const [sha, email] = parts;` — the (sha, email) of a line, when it has
exactly two space-separated fields. -/
def parseLine (line : String) : Option (String × String) :=
  match splitChar ' ' line.data with
  | [a, b] => some (String.mk a, String.mk b)
  | _ => none

/-- All well-formed (sha, email) records of the given paths' histories. -/
def historyPairs (paths : List (List String)) : List (String × String) :=
  (paths.map (fun ls => ls.filterMap parseLine)).flatten

/-- The pair (sha, email) is a well-formed record of some path's history. -/
abbrev WfPair (paths : List (List String)) (sha email : String) : Prop :=
  (sha, email) ∈ historyPairs paths

/-- The emails appearing in well-formed history records. -/
def historyEmails (paths : List (List String)) : List String :=
  (historyPairs paths).map Prod.snd

/-- The distinct history emails not present in the supplied cache. -/
def uncachedEmails (paths : List (List String))
    (cache0 : List (String × String)) : List String :=
  (historyEmails paths).dedup.filter (fun e => (mapLookup cache0 e).isNone)

/-- Replace the program counter of task `i`. -/
def setTaskPC (s : St) (i : Nat) (t : LTask) (pc : PC) : St :=
  { s with tasks := s.tasks.set i { t with pc := pc } }

/-- Scheduler actions: spawn / finish a path's `git log`; run a line worker
up to its first suspension; run the `setApiPromiseQueue` worker it queued;
settle an in-flight request; resume a line worker after its awaited promise
settled. -/
inductive Act
  | startGit (p : Nat)
  | endGit (p : Nat)
  | runLine (i : Nat)
  | runSet (i : Nat)
  | settle (email : String)
  | finishLine (i : Nat)
deriving DecidableEq

/-- The extracted login of a settled request: a rejected request settles to
`undefined` (`none`); a response carries `response.data?.author?.login`. -/
def settleOut : ApiBehavior → Option (Option String)
  | .reject _ => none
  | .respond lo => some lo

/-- First synchronous segment of a line worker: parse the line, drop it
unless it has exactly two fields, on a cache hit add the cached login to the
path's author set and return, on a miss queue a `setApiPromiseQueue` task. -/
def stepRunLine (s : St) (i : Nat) : St :=
  match s.tasks[i]? with
  | none => s
  | some t =>
      match t.pc with
      | .start =>
          match parseLine t.line with
          | none => setTaskPC s i t .done
          | some (sha, email) =>
              match mapLookup s.cache email with
              | some login =>
                  { setTaskPC s i t .done with
                    adds := s.adds ++ [(t.path, email, login)] }
              | none => setTaskPC s i t (.awaitSet sha email)
      | _ => s

/-- The `setApiPromiseQueue` worker (lines 73-84): if `promiseForEmail` has
no entry for the email, issue the commits-API request for this task's sha
and store its promise; either way the line worker's `await push` resumes. -/
def stepRunSet (s : St) (i : Nat) : St :=
  match s.tasks[i]? with
  | none => s
  | some t =>
      match t.pc with
      | .awaitSet sha email =>
          if mapHas s.prom email then setTaskPC s i t (.awaitProm sha email)
          else
            { setTaskPC s i t (.awaitProm sha email) with
              prom := mapSet s.prom email (.pending sha),
              apiStarts := s.apiStarts ++ [(email, sha)] }
      | _ => s

/-- Settlement of the in-flight request for an email: a rejection runs the
`.catch` handler, invoking the error callback with the representative sha
and resolving the stored promise to `undefined`; a response settles the
promise with the response. -/
def stepSettle (api : String → ApiBehavior) (s : St) (email : String) : St :=
  match mapLookup s.prom email with
  | some (.pending sha) =>
      match api sha with
      | .reject err =>
          { s with
            prom := mapSet s.prom email (.settled none),
            errors := s.errors ++ [⟨sha, email, .requestError err⟩] }
      | .respond lo => { s with prom := mapSet s.prom email (.settled (some lo)) }
  | _ => s

/-- Final segment of a line worker, after `await promiseForEmail.get(email)`:
`if (!response) return;` then extract `.data?.author?.login`; a string login
is written to the cache and the author set, otherwise the error callback is
invoked with `'.author.login not found in the API response'`. -/
def stepFinishLine (s : St) (i : Nat) : St :=
  match s.tasks[i]? with
  | none => s
  | some t =>
      match t.pc with
      | .awaitProm sha email =>
          match mapLookup s.prom email with
          | some (.settled out) =>
              match out with
              | none => setTaskPC s i t .done
              | some none =>
                  { setTaskPC s i t .done with
                    errors := s.errors ++ [⟨sha, email, .loginMissing⟩] }
              | some (some login) =>
                  { setTaskPC s i t .done with
                    cache := mapSet s.cache email login,
                    adds := s.adds ++ [(t.path, email, login)] }
          | _ => s
      | _ => s

/-- One transition.  A disabled action leaves the state unchanged. -/
def step (paths : List (List String)) (api : String → ApiBehavior) (s : St) :
    Act → St
  | .startGit p =>
      if p < paths.length ∧ p ∉ s.gitStarted then
        { s with gitStarted := s.gitStarted ++ [p] }
      else s
  | .endGit p =>
      if p ∈ s.gitStarted ∧ p ∉ s.gitDone then
        { s with
          gitDone := s.gitDone ++ [p],
          tasks := s.tasks ++ (paths.getD p []).map (fun l => ⟨p, l, .start⟩) }
      else s
  | .runLine i => stepRunLine s i
  | .runSet i => stepRunSet s i
  | .settle email => stepSettle api s email
  | .finishLine i => stepFinishLine s i

/-- A run: execute a schedule from the initial state. -/
def run (paths : List (List String)) (api : String → ApiBehavior)
    (cache0 : List (String × String)) (acts : List Act) : St :=
  acts.foldl (step paths api) (initSt cache0)

/-- The run has finished: every path's history was delivered and every line
worker returned. -/
def IsComplete (paths : List (List String)) (s : St) : Prop :=
  (∀ p < paths.length, p ∈ s.gitDone) ∧ ∀ t ∈ s.tasks, t.pc = .done

instance (paths : List (List String)) (s : St) :
    Decidable (IsComplete paths s) := by
  unfold IsComplete
  infer_instance

/-- Number of `git log` processes currently executing. -/
def gitInFlight (s : St) : Nat :=
  (s.gitStarted.filter (fun p => decide (p ∉ s.gitDone))).length

/-- Number of commits-API requests currently in flight. -/
def apiInFlight (s : St) : Nat :=
  s.prom.countP (fun pr => pr.2.isPending)

/-- Number of error-callback invocations reporting a rejected request for
the given email. -/
def countReqErr (errors : List ErrEntry) (e : String) : Nat :=
  errors.countP (fun en => en.email == e && en.detail.isReq)

/-- The email of the i-th queued line across all paths (used only to build
the canonical schedule). -/
def emailAt (paths : List (List String)) (i : Nat) : String :=
  match parseLine (paths.flatten.getD i ("") ) with
  | some (_, e) => e
  | none => ""

/-- A schedule that runs every path and then drives every line worker to
completion, one after the other. -/
def canonicalSched (paths : List (List String)) : List Act :=
  ((List.range paths.length).map (fun p => [Act.startGit p, Act.endGit p])).flatten
    ++ ((List.range paths.flatten.length).map
        (fun i =>
          [Act.runLine i, Act.runSet i, Act.settle (emailAt paths i),
            Act.finishLine i])).flatten

/-! ### `getAuthors` / `cacheFor` entry points (lines 151-190)

Both destructure the configs and call `createSetApiPromiseQueue`, whose
first statement is `checkRepo(repo)`; only if the assertion passes is any
git process spawned or API request issued. -/

/-- Model of `cacheFor(configs)` over the given paths' histories: repo validation,
then a run over all paths with a fresh shared cache. -/
def cacheForRun (repo : String) (paths : List (List String))
    (api : String → ApiBehavior) (acts : List Act) : Except String St :=
  (checkRepo repo).map (fun _ => run paths api [] acts)

/-- Model of `getAuthors(configs)` over the given path's history: repo validation,
then a one-path run with the caller-supplied cache. -/
def getAuthorsRun (repo : String) (lines : List String)
    (api : String → ApiBehavior) (cache0 : List (String × String))
    (acts : List Act) : Except String St :=
  (checkRepo repo).map (fun _ => run [lines] api cache0 acts)

/-- The Identity-Resolver step for a commit fails: the request rejects, or
the response carries no string `.author.login`. -/
def apiFails : ApiBehavior → Bool
  | .reject _ => true
  | .respond none => true
  | .respond (some _) => false

/-- A sample resolver behavior used by the concrete witness runs:
commits c1/c2 resolve to logins, c9 yields a response without a string
login, cR rejects. -/
def apiW : String → ApiBehavior
  | "c1" => .respond (some ("alice"))
  | "c2" => .respond (some ("bob"))
  | "cR" => .reject ("network error")
  | _ => .respond none

/-- The run invariant, preserved by every action from the initial state.
Its fields tie the logs and the shared maps of a state to the static data
of the run (the histories, the supplied cache, the resolver behavior). -/
structure Inv (paths : List (List String)) (cache0 : List (String × String))
    (api : String → ApiBehavior) (s : St) : Prop where
  git_lt : ∀ p ∈ s.gitStarted, p < paths.length
  git_nodup : s.gitStarted.Nodup
  gitDone_sub : ∀ p ∈ s.gitDone, p ∈ s.gitStarted
  keys_eq : mapKeys s.prom = s.apiStarts.map Prod.fst
  keys_nodup : (mapKeys s.prom).Nodup
  prom_email : ∀ pr ∈ s.prom,
      (∃ sha, WfPair paths sha pr.1) ∧ mapLookup cache0 pr.1 = none
  task_src : ∀ t ∈ s.tasks, t.path < paths.length ∧ t.line ∈ paths.getD t.path []
  task_wait : ∀ t ∈ s.tasks, ∀ sha email,
      (t.pc = .awaitSet sha email ∨ t.pc = .awaitProm sha email) →
      parseLine t.line = some (sha, email) ∧ mapLookup cache0 email = none
  cache0_le : ∀ k v, mapLookup cache0 k = some v → mapLookup s.cache k = some v
  cache_src : ∀ k v, mapLookup s.cache k = some v →
      mapLookup cache0 k = some v ∨
        mapLookup s.prom k = some (.settled (some (some v)))
  pending_wf : ∀ e sha, mapLookup s.prom e = some (.pending sha) →
      WfPair paths sha e
  settled_src : ∀ e out, mapLookup s.prom e = some (.settled out) →
      ∃ sha, WfPair paths sha e ∧ settleOut (api sha) = out
  req_err : ∀ e, countReqErr s.errors e =
      if mapLookup s.prom e = some (.settled none) then 1 else 0
  err_wf : ∀ en ∈ s.errors, WfPair paths en.sha en.email
  done_hit : ∀ t ∈ s.tasks, t.pc = .done → ∀ sha email v,
      parseLine t.line = some (sha, email) →
      mapLookup cache0 email = some v → (t.path, email, v) ∈ s.adds
  done_miss : ∀ t ∈ s.tasks, t.pc = .done → ∀ sha email,
      parseLine t.line = some (sha, email) → mapLookup cache0 email = none →
      ∃ out, mapLookup s.prom email = some (.settled out)
  done_nologin : ∀ t ∈ s.tasks, t.pc = .done → ∀ sha email,
      parseLine t.line = some (sha, email) → mapLookup cache0 email = none →
      mapLookup s.prom email = some (.settled (some none)) →
      ∃ en ∈ s.errors, en.email = email ∧ en.detail = .loginMissing
  adds_src : ∀ a ∈ s.adds, mapLookup cache0 a.2.1 = some a.2.2 ∨
      mapLookup s.prom a.2.1 = some (.settled (some (some a.2.2)))
  spawned : ∀ p ∈ s.gitDone, ∀ line ∈ paths.getD p [],
      (p, line) ∈ s.tasks.map (fun t => (t.path, t.line))

/-! ### Association-list lemmas -/

theorem mapLookup_eq_none {α : Type} (m : List (String × α)) (k : String) :
    mapLookup m k = none ↔ k ∉ mapKeys m := by
  induction m with
  | nil => simp [mapLookup, mapKeys]
  | cons p rest ih =>
      obtain ⟨k', v⟩ := p
      by_cases h : k' = k <;> simp [mapLookup, mapKeys, h] at ih ⊢ <;>
        simp [ih, h, Ne.symm h]

theorem mapLookup_mem {α : Type} {m : List (String × α)} {k : String} {v : α}
    (h : mapLookup m k = some v) : (k, v) ∈ m := by
  induction m with
  | nil => simp [mapLookup] at h
  | cons p rest ih =>
      obtain ⟨k', v'⟩ := p
      by_cases hk : k' = k
      · subst hk
        simp [mapLookup] at h
        simp [h]
      · simp [mapLookup, hk] at h
        simp [ih h]

theorem mapSet_lookup_self {α : Type} (m : List (String × α)) (k : String)
    (v : α) : mapLookup (mapSet m k v) k = some v := by
  induction m with
  | nil => simp [mapSet, mapLookup]
  | cons p rest ih =>
      obtain ⟨k', v'⟩ := p
      by_cases hk : k' = k <;> simp [mapSet, mapLookup, hk, ih]

theorem mapSet_lookup_ne {α : Type} (m : List (String × α)) {k k' : String}
    (v : α) (h : k' ≠ k) :
    mapLookup (mapSet m k v) k' = mapLookup m k' := by
  induction m with
  | nil => simp [mapSet, mapLookup, Ne.symm h]
  | cons p rest ih =>
      obtain ⟨k'', v''⟩ := p
      by_cases hk : k'' = k
      · subst hk
        simp [mapSet, mapLookup, Ne.symm h]
      · simp only [mapSet, if_neg hk, mapLookup]
        by_cases hk' : k'' = k' <;> simp [hk', ih]

theorem mapKeys_mapSet_of_mem {α : Type} {m : List (String × α)} {k : String}
    (v : α) (h : k ∈ mapKeys m) :
    mapKeys (mapSet m k v) = mapKeys m := by
  induction m with
  | nil => cases h
  | cons p rest ih =>
      obtain ⟨k', v'⟩ := p
      have hcons : mapKeys ((k', v') :: rest) = k' :: mapKeys rest := rfl
      by_cases hk : k' = k
      · subst hk
        simp [mapSet, mapKeys]
      · rw [hcons] at h
        have h' : k ∈ mapKeys rest := by
          rcases List.mem_cons.mp h with h0 | h0
          · exact absurd h0.symm hk
          · exact h0
        have : mapKeys (mapSet rest k v) = mapKeys rest := ih h'
        simp [mapSet, hk, mapKeys] at this ⊢
        exact this

theorem mapSet_of_not_mem {α : Type} {m : List (String × α)} {k : String}
    (v : α) (h : k ∉ mapKeys m) : mapSet m k v = m ++ [(k, v)] := by
  induction m with
  | nil => simp [mapSet]
  | cons p rest ih =>
      obtain ⟨k', v'⟩ := p
      have hcons : mapKeys ((k', v') :: rest) = k' :: mapKeys rest := rfl
      rw [hcons] at h
      have h1 : k ≠ k' := fun he => h (he ▸ List.mem_cons_self _ _)
      have h2 : k ∉ mapKeys rest := fun he => h (List.mem_cons_of_mem _ he)
      simp [mapSet, Ne.symm h1, ih h2]

theorem mem_mapSet {α : Type} {m : List (String × α)} {k : String} {v : α}
    {a : String × α} (h : a ∈ mapSet m k v) : a = (k, v) ∨ a ∈ m := by
  induction m with
  | nil => simp [mapSet] at h; simp [h]
  | cons p rest ih =>
      obtain ⟨k', v'⟩ := p
      by_cases hk : k' = k
      · subst hk
        simp [mapSet] at h
        rcases h with h | h <;> simp [h]
      · simp [mapSet, hk] at h
        rcases h with h | h
        · simp [h]
        · rcases ih h with h' | h' <;> simp [h']

theorem getElemOpt_mem {α : Type} {l : List α} {i : Nat} {a : α}
    (h : l[i]? = some a) : a ∈ l := by
  induction l generalizing i with
  | nil => simp at h
  | cons x xs ih =>
      cases i with
      | zero => simp at h; simp [h]
      | succ n => simp at h; simp [ih h]

theorem map_set_eq_of_get {α β : Type} {l : List α} {i : Nat} {a : α}
    (b : α) (f : α → β) (h : l[i]? = some a) (hfb : f a = f b) :
    (l.set i b).map f = l.map f := by
  induction l generalizing i with
  | nil => simp at h
  | cons x xs ih =>
      cases i with
      | zero =>
          simp at h
          subst h
          simp [List.set, hfb]
      | succ n =>
          simp at h
          simp [List.set, ih h]

theorem getD_mem {α : Type} {l : List α} {i : Nat} (d : α)
    (h : i < l.length) : l.getD i d ∈ l := by
  induction l generalizing i with
  | nil => simp at h
  | cons x xs ih =>
      cases i with
      | zero => simp
      | succ n =>
          simp at h
          simpa using Or.inr (ih h)

theorem wfPair_of_task {paths : List (List String)} {p : Nat} {line : String}
    {sha email : String} (hp : p < paths.length) (hl : line ∈ paths.getD p [])
    (hparse : parseLine line = some (sha, email)) :
    WfPair paths sha email := by
  unfold WfPair historyPairs
  rw [List.mem_flatten]
  refine ⟨(paths.getD p []).filterMap parseLine, ?_, ?_⟩
  · exact List.mem_map_of_mem _ (getD_mem [] hp)
  · exact List.mem_filterMap.mpr ⟨line, hl, hparse⟩

/-! ### Preservation of the invariant -/

theorem inv_startGit {paths : List (List String)}
    {cache0 : List (String × String)} {api : String → ApiBehavior} {s : St}
    (hinv : Inv paths cache0 api s) (p : Nat) :
    Inv paths cache0 api (step paths api s (.startGit p)) := by
  simp only [step]
  split
  · next hcond =>
      obtain ⟨hlt, hnot⟩ := hcond
      refine { hinv with git_lt := ?_, git_nodup := ?_, gitDone_sub := ?_ }
      · intro q hq
        rcases List.mem_append.mp hq with h | h
        · exact hinv.git_lt q h
        · simp at h
          subst h
          exact hlt
      · refine List.Nodup.append hinv.git_nodup (List.nodup_singleton p) ?_
        intro a ha hb
        simp at hb
        subst hb
        exact hnot ha
      · exact fun q hq => List.mem_append_left _ (hinv.gitDone_sub q hq)
  · exact hinv

theorem inv_endGit {paths : List (List String)}
    {cache0 : List (String × String)} {api : String → ApiBehavior} {s : St}
    (hinv : Inv paths cache0 api s) (p : Nat) :
    Inv paths cache0 api (step paths api s (.endGit p)) := by
  simp only [step]
  split
  · next hcond =>
      obtain ⟨hmem, hnotdone⟩ := hcond
      have hplt : p < paths.length := hinv.git_lt p hmem
      refine { hinv with
        gitDone_sub := ?_
        task_src := ?_
        task_wait := ?_
        done_hit := ?_
        done_miss := ?_
        done_nologin := ?_
        spawned := ?_ }
      · intro q hq
        rcases List.mem_append.mp hq with h | h
        · exact hinv.gitDone_sub q h
        · simp at h
          subst h
          exact hmem
      · intro t ht
        rcases List.mem_append.mp ht with h | h
        · exact hinv.task_src t h
        · rcases List.mem_map.mp h with ⟨l, hl, rfl⟩
          exact ⟨hplt, hl⟩
      · intro t ht sha email hpc
        rcases List.mem_append.mp ht with h | h
        · exact hinv.task_wait t h sha email hpc
        · rcases List.mem_map.mp h with ⟨l, hl, rfl⟩
          rcases hpc with h' | h' <;> cases h'
      · intro t ht hdone sha email v hparse hc
        rcases List.mem_append.mp ht with h | h
        · exact hinv.done_hit t h hdone sha email v hparse hc
        · rcases List.mem_map.mp h with ⟨l, hl, rfl⟩
          cases hdone
      · intro t ht hdone sha email hparse hc
        rcases List.mem_append.mp ht with h | h
        · exact hinv.done_miss t h hdone sha email hparse hc
        · rcases List.mem_map.mp h with ⟨l, hl, rfl⟩
          cases hdone
      · intro t ht hdone sha email hparse hc hprom
        rcases List.mem_append.mp ht with h | h
        · exact hinv.done_nologin t h hdone sha email hparse hc hprom
        · rcases List.mem_map.mp h with ⟨l, hl, rfl⟩
          cases hdone
      · intro q hq line hline
        rw [List.map_append]
        rcases List.mem_append.mp hq with h | h
        · exact List.mem_append_left _ (hinv.spawned q h line hline)
        · simp at h
          subst h
          refine List.mem_append_right _ ?_
          rw [List.map_map]
          exact List.mem_map_of_mem _ hline
  · exact hinv

theorem mapKeys_mapSet_of_not_mem {α : Type} {m : List (String × α)}
    {k : String} (v : α) (h : k ∉ mapKeys m) :
    mapKeys (mapSet m k v) = mapKeys m ++ [k] := by
  rw [mapSet_of_not_mem v h]
  simp [mapKeys]

theorem mem_mapKeys_of_lookup {α : Type} {m : List (String × α)} {k : String}
    {v : α} (h : mapLookup m k = some v) : k ∈ mapKeys m := by
  by_contra hn
  rw [(mapLookup_eq_none m k).mpr hn] at h
  cases h

theorem inv_runLine {paths : List (List String)}
    {cache0 : List (String × String)} {api : String → ApiBehavior} {s : St}
    (hinv : Inv paths cache0 api s) (i : Nat) :
    Inv paths cache0 api (step paths api s (.runLine i)) := by
  show Inv paths cache0 api (stepRunLine s i)
  unfold stepRunLine
  split
  · exact hinv
  · next t heq =>
      have hmem : t ∈ s.tasks := getElemOpt_mem heq
      have htsrc := hinv.task_src t hmem
      split
      · next hpc =>
          split
          · next heqparse =>
              -- malformed line: the worker returns at once
              refine { hinv with
                task_src := ?_
                task_wait := ?_
                done_hit := ?_
                done_miss := ?_
                done_nologin := ?_
                spawned := ?_ }
              · intro t' ht'
                rcases List.mem_or_eq_of_mem_set ht' with h' | h'
                · exact hinv.task_src t' h'
                · subst h'
                  exact htsrc
              · intro t' ht' sha' email' hpc'
                rcases List.mem_or_eq_of_mem_set ht' with h' | h'
                · exact hinv.task_wait t' h' sha' email' hpc'
                · subst h'
                  rcases hpc' with h' | h' <;> cases h'
              · intro t' ht' hdone sha' email' v hparse' hc
                rcases List.mem_or_eq_of_mem_set ht' with h' | h'
                · exact hinv.done_hit t' h' hdone sha' email' v hparse' hc
                · subst h'
                  dsimp only at hparse'
                  rw [heqparse] at hparse'
                  cases hparse'
              · intro t' ht' hdone sha' email' hparse' hc
                rcases List.mem_or_eq_of_mem_set ht' with h' | h'
                · exact hinv.done_miss t' h' hdone sha' email' hparse' hc
                · subst h'
                  dsimp only at hparse'
                  rw [heqparse] at hparse'
                  cases hparse'
              · intro t' ht' hdone sha' email' hparse' hc hprom
                rcases List.mem_or_eq_of_mem_set ht' with h' | h'
                · exact hinv.done_nologin t' h' hdone sha' email' hparse' hc hprom
                · subst h'
                  dsimp only at hparse'
                  rw [heqparse] at hparse'
                  cases hparse'
              · intro q hq line hline
                have hrw : (s.tasks.set i { t with pc := PC.done }).map
                    (fun t => (t.path, t.line)) =
                    s.tasks.map (fun t => (t.path, t.line)) :=
                  map_set_eq_of_get _ _ heq rfl
                rw [setTaskPC]
                dsimp only
                rw [hrw]
                exact hinv.spawned q hq line hline
          · next sha email heqparse =>
              split
              · next login heqc =>
                  -- cache hit: authors.add(cache.get(email))
                  have hdisj := hinv.cache_src email login heqc
                  refine { hinv with
                    task_src := ?_
                    task_wait := ?_
                    done_hit := ?_
                    done_miss := ?_
                    done_nologin := ?_
                    adds_src := ?_
                    spawned := ?_ }
                  · intro t' ht'
                    rcases List.mem_or_eq_of_mem_set ht' with h' | h'
                    · exact hinv.task_src t' h'
                    · subst h'
                      exact htsrc
                  · intro t' ht' sha' email' hpc'
                    rcases List.mem_or_eq_of_mem_set ht' with h' | h'
                    · exact hinv.task_wait t' h' sha' email' hpc'
                    · subst h'
                      rcases hpc' with h' | h' <;> cases h'
                  · intro t' ht' hdone sha' email' v hparse' hc
                    rcases List.mem_or_eq_of_mem_set ht' with h' | h'
                    · exact List.mem_append_left _
                        (hinv.done_hit t' h' hdone sha' email' v hparse' hc)
                    · subst h'
                      dsimp only at hparse' ⊢
                      rw [heqparse] at hparse'
                      simp only [Option.some.injEq, Prod.mk.injEq] at hparse'
                      obtain ⟨h3, h4⟩ := hparse'
                      subst h3
                      subst h4
                      have hv := hinv.cache0_le email v hc
                      rw [heqc] at hv
                      injection hv with hv
                      subst hv
                      exact List.mem_append_right _ (by simp)
                  · intro t' ht' hdone sha' email' hparse' hc
                    rcases List.mem_or_eq_of_mem_set ht' with h' | h'
                    · exact hinv.done_miss t' h' hdone sha' email' hparse' hc
                    · subst h'
                      dsimp only at hparse'
                      rw [heqparse] at hparse'
                      simp only [Option.some.injEq, Prod.mk.injEq] at hparse'
                      obtain ⟨h3, h4⟩ := hparse'
                      subst h3
                      subst h4
                      rcases hdisj with h' | h'
                      · rw [hc] at h'
                        cases h'
                      · exact ⟨some (some login), h'⟩
                  · intro t' ht' hdone sha' email' hparse' hc hprom
                    rcases List.mem_or_eq_of_mem_set ht' with h' | h'
                    · exact hinv.done_nologin t' h' hdone sha' email' hparse' hc hprom
                    · subst h'
                      dsimp only at hparse' hprom
                      rw [heqparse] at hparse'
                      simp only [Option.some.injEq, Prod.mk.injEq] at hparse'
                      obtain ⟨h3, h4⟩ := hparse'
                      subst h3
                      subst h4
                      rcases hdisj with h' | h'
                      · rw [hc] at h'
                        cases h'
                      · have hprom2 : mapLookup s.prom email =
                            some (PromSt.settled (some none)) := hprom
                        rw [h'] at hprom2
                        simp at hprom2
                  · intro a ha
                    rcases List.mem_append.mp ha with h' | h'
                    · exact hinv.adds_src a h'
                    · simp at h'
                      subst h'
                      exact hdisj
                  · intro q hq line hline
                    have hrw : (s.tasks.set i { t with pc := PC.done }).map
                        (fun t => (t.path, t.line)) =
                        s.tasks.map (fun t => (t.path, t.line)) :=
                      map_set_eq_of_get _ _ heq rfl
                    rw [setTaskPC]
                    dsimp only
                    rw [hrw]
                    exact hinv.spawned q hq line hline
              · next heqc =>
                  -- cache miss: queue the setApiPromiseQueue task
                  have hc0 : mapLookup cache0 email = none := by
                    cases h0 : mapLookup cache0 email with
                    | none => rfl
                    | some v =>
                        have hv := hinv.cache0_le email v h0
                        rw [heqc] at hv
                        cases hv
                  refine { hinv with
                    task_src := ?_
                    task_wait := ?_
                    done_hit := ?_
                    done_miss := ?_
                    done_nologin := ?_
                    spawned := ?_ }
                  · intro t' ht'
                    rcases List.mem_or_eq_of_mem_set ht' with h' | h'
                    · exact hinv.task_src t' h'
                    · subst h'
                      exact htsrc
                  · intro t' ht' sha' email' hpc'
                    rcases List.mem_or_eq_of_mem_set ht' with h' | h'
                    · exact hinv.task_wait t' h' sha' email' hpc'
                    · subst h'
                      dsimp only at hpc' ⊢
                      have h1 : sha' = sha ∧ email' = email := by
                        rcases hpc' with h' | h'
                        · injection h' with h2 h3
                          exact ⟨h2.symm, h3.symm⟩
                        · cases h'
                      obtain ⟨rfl, rfl⟩ := h1
                      exact ⟨heqparse, hc0⟩
                  · intro t' ht' hdone sha' email' v hparse' hc
                    rcases List.mem_or_eq_of_mem_set ht' with h' | h'
                    · exact hinv.done_hit t' h' hdone sha' email' v hparse' hc
                    · subst h'
                      cases hdone
                  · intro t' ht' hdone sha' email' hparse' hc
                    rcases List.mem_or_eq_of_mem_set ht' with h' | h'
                    · exact hinv.done_miss t' h' hdone sha' email' hparse' hc
                    · subst h'
                      cases hdone
                  · intro t' ht' hdone sha' email' hparse' hc hprom
                    rcases List.mem_or_eq_of_mem_set ht' with h' | h'
                    · exact hinv.done_nologin t' h' hdone sha' email' hparse' hc hprom
                    · subst h'
                      cases hdone
                  · intro q hq line hline
                    have hrw : (s.tasks.set i { t with pc := PC.awaitSet sha email }).map
                        (fun t => (t.path, t.line)) =
                        s.tasks.map (fun t => (t.path, t.line)) :=
                      map_set_eq_of_get _ _ heq rfl
                    rw [setTaskPC]
                    dsimp only
                    rw [hrw]
                    exact hinv.spawned q hq line hline
      · exact hinv


theorem inv_runSet {paths : List (List String)}
    {cache0 : List (String × String)} {api : String → ApiBehavior} {s : St}
    (hinv : Inv paths cache0 api s) (i : Nat) :
    Inv paths cache0 api (step paths api s (.runSet i)) := by
  show Inv paths cache0 api (stepRunSet s i)
  unfold stepRunSet
  split
  · exact hinv
  · next t heq =>
      have hmem : t ∈ s.tasks := getElemOpt_mem heq
      have htsrc := hinv.task_src t hmem
      split
      · next sha email hpcEq =>
          have htwait := hinv.task_wait t hmem sha email (Or.inl hpcEq)
          have hwf : WfPair paths sha email :=
            wfPair_of_task htsrc.1 htsrc.2 htwait.1
          split
          · next hhas =>
              -- promiseForEmail already has the email: no new request
              refine { hinv with
                task_src := ?_
                task_wait := ?_
                done_hit := ?_
                done_miss := ?_
                done_nologin := ?_
                spawned := ?_ }
              · intro t' ht'
                rcases List.mem_or_eq_of_mem_set ht' with h' | h'
                · exact hinv.task_src t' h'
                · subst h'
                  exact htsrc
              · intro t' ht' sha' email' hpc'
                rcases List.mem_or_eq_of_mem_set ht' with h' | h'
                · exact hinv.task_wait t' h' sha' email' hpc'
                · subst h'
                  dsimp only at hpc'
                  have h1 : sha' = sha ∧ email' = email := by
                    rcases hpc' with h' | h'
                    · cases h'
                    · injection h' with h2 h3
                      exact ⟨h2.symm, h3.symm⟩
                  obtain ⟨rfl, rfl⟩ := h1
                  exact htwait
              · intro t' ht' hdone sha' email' v hparse' hc
                rcases List.mem_or_eq_of_mem_set ht' with h' | h'
                · exact hinv.done_hit t' h' hdone sha' email' v hparse' hc
                · subst h'
                  cases hdone
              · intro t' ht' hdone sha' email' hparse' hc
                rcases List.mem_or_eq_of_mem_set ht' with h' | h'
                · exact hinv.done_miss t' h' hdone sha' email' hparse' hc
                · subst h'
                  cases hdone
              · intro t' ht' hdone sha' email' hparse' hc hprom
                rcases List.mem_or_eq_of_mem_set ht' with h' | h'
                · exact hinv.done_nologin t' h' hdone sha' email' hparse' hc hprom
                · subst h'
                  cases hdone
              · intro q hq line hline
                have hrw : (s.tasks.set i { t with pc := PC.awaitProm sha email }).map
                    (fun t => (t.path, t.line)) =
                    s.tasks.map (fun t => (t.path, t.line)) :=
                  map_set_eq_of_get _ _ heq rfl
                rw [setTaskPC]
                dsimp only
                rw [hrw]
                exact hinv.spawned q hq line hline
          · next hhas =>
              -- first submission for the email: issue the API request
              have hlooknone : mapLookup s.prom email = none := by
                cases hl : mapLookup s.prom email with
                | none => rfl
                | some v => exact absurd (by simp [mapHas, hl]) hhas
              have hnotmem : email ∉ mapKeys s.prom :=
                (mapLookup_eq_none _ _).mp hlooknone
              have hkeys : mapKeys (mapSet s.prom email (.pending sha)) =
                  mapKeys s.prom ++ [email] :=
                mapKeys_mapSet_of_not_mem _ hnotmem
              refine { hinv with
                keys_eq := ?_
                keys_nodup := ?_
                prom_email := ?_
                task_src := ?_
                task_wait := ?_
                cache_src := ?_
                pending_wf := ?_
                settled_src := ?_
                req_err := ?_
                done_hit := ?_
                done_miss := ?_
                done_nologin := ?_
                adds_src := ?_
                spawned := ?_ }
              · dsimp only
                rw [hkeys, hinv.keys_eq]
                simp
              · dsimp only
                rw [hkeys]
                refine List.Nodup.append hinv.keys_nodup
                  (List.nodup_singleton email) ?_
                intro a ha hb
                simp at hb
                subst hb
                exact hnotmem ha
              · intro pr hpr
                rcases mem_mapSet hpr with h' | h'
                · subst h'
                  exact ⟨⟨sha, hwf⟩, htwait.2⟩
                · exact hinv.prom_email pr h'
              · intro t' ht'
                rcases List.mem_or_eq_of_mem_set ht' with h' | h'
                · exact hinv.task_src t' h'
                · subst h'
                  exact htsrc
              · intro t' ht' sha' email' hpc'
                rcases List.mem_or_eq_of_mem_set ht' with h' | h'
                · exact hinv.task_wait t' h' sha' email' hpc'
                · subst h'
                  dsimp only at hpc'
                  have h1 : sha' = sha ∧ email' = email := by
                    rcases hpc' with h' | h'
                    · cases h'
                    · injection h' with h2 h3
                      exact ⟨h2.symm, h3.symm⟩
                  obtain ⟨rfl, rfl⟩ := h1
                  exact htwait
              · intro k v hkv
                rcases hinv.cache_src k v hkv with h' | h'
                · exact Or.inl h'
                · by_cases hke : k = email
                  · subst hke
                    rw [hlooknone] at h'
                    cases h'
                  · refine Or.inr ?_
                    dsimp only
                    rw [mapSet_lookup_ne _ _ hke]
                    exact h'
              · intro e sha0 hl
                dsimp only at hl
                by_cases he : e = email
                · subst he
                  rw [mapSet_lookup_self] at hl
                  injection hl with h2
                  injection h2 with h3
                  subst h3
                  exact hwf
                · rw [mapSet_lookup_ne _ _ he] at hl
                  exact hinv.pending_wf e sha0 hl
              · intro e out hl
                dsimp only at hl
                by_cases he : e = email
                · subst he
                  rw [mapSet_lookup_self] at hl
                  injection hl with h2
                  cases h2
                · rw [mapSet_lookup_ne _ _ he] at hl
                  exact hinv.settled_src e out hl
              · intro e
                dsimp only
                by_cases he : e = email
                · subst he
                  rw [mapSet_lookup_self]
                  have h0 := hinv.req_err e
                  rw [hlooknone] at h0
                  simpa using h0
                · rw [mapSet_lookup_ne _ _ he]
                  exact hinv.req_err e
              · intro t' ht' hdone sha' email' v hparse' hc
                rcases List.mem_or_eq_of_mem_set ht' with h' | h'
                · exact hinv.done_hit t' h' hdone sha' email' v hparse' hc
                · subst h'
                  cases hdone
              · intro t' ht' hdone sha' email' hparse' hc
                rcases List.mem_or_eq_of_mem_set ht' with h' | h'
                · obtain ⟨out, hout⟩ :=
                    hinv.done_miss t' h' hdone sha' email' hparse' hc
                  by_cases he : email' = email
                  · subst he
                    rw [hlooknone] at hout
                    cases hout
                  · refine ⟨out, ?_⟩
                    dsimp only
                    rw [mapSet_lookup_ne _ _ he]
                    exact hout
                · subst h'
                  cases hdone
              · intro t' ht' hdone sha' email' hparse' hc hprom
                rcases List.mem_or_eq_of_mem_set ht' with h' | h'
                · dsimp only at hprom
                  by_cases he : email' = email
                  · subst he
                    obtain ⟨out, hout⟩ :=
                      hinv.done_miss t' h' hdone sha' email' hparse' hc
                    rw [hlooknone] at hout
                    cases hout
                  · rw [mapSet_lookup_ne _ _ he] at hprom
                    exact hinv.done_nologin t' h' hdone sha' email' hparse' hc hprom
                · subst h'
                  cases hdone
              · intro a ha
                rcases hinv.adds_src a ha with h' | h'
                · exact Or.inl h'
                · by_cases he : a.2.1 = email
                  · rw [he, hlooknone] at h'
                    cases h'
                  · refine Or.inr ?_
                    dsimp only
                    rw [mapSet_lookup_ne _ _ he]
                    exact h'
              · intro q hq line hline
                have hrw : (s.tasks.set i { t with pc := PC.awaitProm sha email }).map
                    (fun t => (t.path, t.line)) =
                    s.tasks.map (fun t => (t.path, t.line)) :=
                  map_set_eq_of_get _ _ heq rfl
                rw [setTaskPC]
                dsimp only
                rw [hrw]
                exact hinv.spawned q hq line hline
      · exact hinv

theorem inv_settle {paths : List (List String)}
    {cache0 : List (String × String)} {api : String → ApiBehavior} {s : St}
    (hinv : Inv paths cache0 api s) (email : String) :
    Inv paths cache0 api (step paths api s (.settle email)) := by
  show Inv paths cache0 api (stepSettle api s email)
  unfold stepSettle
  split
  · next sha hpend =>
      have hexmem : email ∈ mapKeys s.prom := mem_mapKeys_of_lookup hpend
      have hwfp : WfPair paths sha email := hinv.pending_wf email sha hpend
      have hentry : (email, PromSt.pending sha) ∈ s.prom := mapLookup_mem hpend
      split
      · next err hapi =>
          -- request rejected: .catch runs the error callback, promise
          -- resolves to undefined
          have hkeys : mapKeys (mapSet s.prom email (.settled none)) =
              mapKeys s.prom := mapKeys_mapSet_of_mem _ hexmem
          refine { hinv with
            keys_eq := ?_
            keys_nodup := ?_
            prom_email := ?_
            cache_src := ?_
            pending_wf := ?_
            settled_src := ?_
            req_err := ?_
            err_wf := ?_
            done_miss := ?_
            done_nologin := ?_
            adds_src := ?_ }
          · dsimp only
            rw [hkeys]
            exact hinv.keys_eq
          · dsimp only
            rw [hkeys]
            exact hinv.keys_nodup
          · intro pr hpr
            rcases mem_mapSet hpr with h' | h'
            · subst h'
              exact hinv.prom_email (email, PromSt.pending sha) hentry
            · exact hinv.prom_email pr h'
          · intro k v hkv
            rcases hinv.cache_src k v hkv with h' | h'
            · exact Or.inl h'
            · by_cases hke : k = email
              · subst hke
                rw [hpend] at h'
                cases h'
              · refine Or.inr ?_
                dsimp only
                rw [mapSet_lookup_ne _ _ hke]
                exact h'
          · intro e sha0 hl
            dsimp only at hl
            by_cases he : e = email
            · subst he
              rw [mapSet_lookup_self] at hl
              injection hl with h2
              cases h2
            · rw [mapSet_lookup_ne _ _ he] at hl
              exact hinv.pending_wf e sha0 hl
          · intro e out hl
            dsimp only at hl
            by_cases he : e = email
            · subst he
              rw [mapSet_lookup_self] at hl
              injection hl with h2
              injection h2 with h3
              refine ⟨sha, hwfp, ?_⟩
              rw [hapi, ← h3]
              rfl
            · rw [mapSet_lookup_ne _ _ he] at hl
              exact hinv.settled_src e out hl
          · intro e
            dsimp only
            have h0 := hinv.req_err e
            by_cases he : e = email
            · subst he
              rw [mapSet_lookup_self, if_pos rfl]
              rw [hpend, if_neg (by simp)] at h0
              simp only [countReqErr, List.countP_append, List.countP_cons,
                List.countP_nil] at h0 ⊢
              rw [h0]
              simp [ErrDetail.isReq]
            · rw [mapSet_lookup_ne _ _ he]
              have hz : countReqErr
                  (s.errors ++ [⟨sha, email, ErrDetail.requestError err⟩]) e =
                  countReqErr s.errors e := by
                simp only [countReqErr, List.countP_append, List.countP_cons,
                  List.countP_nil]
                have hne : (email == e) = false :=
                  beq_eq_false_iff_ne.mpr (Ne.symm he)
                simp [hne]
              rw [hz, h0]
          · intro en hen
            rcases List.mem_append.mp hen with h' | h'
            · exact hinv.err_wf en h'
            · simp at h'
              subst h'
              exact hwfp
          · intro t' ht' hdone sha' email' hparse' hc
            obtain ⟨out, hout⟩ :=
              hinv.done_miss t' ht' hdone sha' email' hparse' hc
            by_cases he : email' = email
            · subst he
              rw [hpend] at hout
              injection hout with h2
              cases h2
            · refine ⟨out, ?_⟩
              dsimp only
              rw [mapSet_lookup_ne _ _ he]
              exact hout
          · intro t' ht' hdone sha' email' hparse' hc hprom
            dsimp only at hprom
            by_cases he : email' = email
            · subst he
              obtain ⟨out, hout⟩ :=
                hinv.done_miss t' ht' hdone sha' email' hparse' hc
              rw [hpend] at hout
              injection hout with h2
              cases h2
            · rw [mapSet_lookup_ne _ _ he] at hprom
              obtain ⟨en, hen, hprop⟩ :=
                hinv.done_nologin t' ht' hdone sha' email' hparse' hc hprom
              exact ⟨en, List.mem_append_left _ hen, hprop⟩
          · intro a ha
            rcases hinv.adds_src a ha with h' | h'
            · exact Or.inl h'
            · by_cases he : a.2.1 = email
              · rw [he, hpend] at h'
                injection h' with h2
                cases h2
              · refine Or.inr ?_
                dsimp only
                rw [mapSet_lookup_ne _ _ he]
                exact h'
      · next lo hapi =>
          -- request succeeded: the promise settles with the response
          have hkeys : mapKeys (mapSet s.prom email (.settled (some lo))) =
              mapKeys s.prom := mapKeys_mapSet_of_mem _ hexmem
          refine { hinv with
            keys_eq := ?_
            keys_nodup := ?_
            prom_email := ?_
            cache_src := ?_
            pending_wf := ?_
            settled_src := ?_
            req_err := ?_
            done_miss := ?_
            done_nologin := ?_
            adds_src := ?_ }
          · dsimp only
            rw [hkeys]
            exact hinv.keys_eq
          · dsimp only
            rw [hkeys]
            exact hinv.keys_nodup
          · intro pr hpr
            rcases mem_mapSet hpr with h' | h'
            · subst h'
              exact hinv.prom_email (email, PromSt.pending sha) hentry
            · exact hinv.prom_email pr h'
          · intro k v hkv
            rcases hinv.cache_src k v hkv with h' | h'
            · exact Or.inl h'
            · by_cases hke : k = email
              · subst hke
                rw [hpend] at h'
                cases h'
              · refine Or.inr ?_
                dsimp only
                rw [mapSet_lookup_ne _ _ hke]
                exact h'
          · intro e sha0 hl
            dsimp only at hl
            by_cases he : e = email
            · subst he
              rw [mapSet_lookup_self] at hl
              injection hl with h2
              cases h2
            · rw [mapSet_lookup_ne _ _ he] at hl
              exact hinv.pending_wf e sha0 hl
          · intro e out hl
            dsimp only at hl
            by_cases he : e = email
            · subst he
              rw [mapSet_lookup_self] at hl
              injection hl with h2
              injection h2 with h3
              refine ⟨sha, hwfp, ?_⟩
              rw [hapi, ← h3]
              rfl
            · rw [mapSet_lookup_ne _ _ he] at hl
              exact hinv.settled_src e out hl
          · intro e
            dsimp only
            have h0 := hinv.req_err e
            by_cases he : e = email
            · subst he
              rw [mapSet_lookup_self]
              rw [hpend] at h0
              simp at h0
              simp [h0]
            · rw [mapSet_lookup_ne _ _ he]
              exact h0
          · intro t' ht' hdone sha' email' hparse' hc
            obtain ⟨out, hout⟩ :=
              hinv.done_miss t' ht' hdone sha' email' hparse' hc
            by_cases he : email' = email
            · subst he
              rw [hpend] at hout
              injection hout with h2
              cases h2
            · refine ⟨out, ?_⟩
              dsimp only
              rw [mapSet_lookup_ne _ _ he]
              exact hout
          · intro t' ht' hdone sha' email' hparse' hc hprom
            dsimp only at hprom
            by_cases he : email' = email
            · subst he
              obtain ⟨out, hout⟩ :=
                hinv.done_miss t' ht' hdone sha' email' hparse' hc
              rw [hpend] at hout
              injection hout with h2
              cases h2
            · rw [mapSet_lookup_ne _ _ he] at hprom
              exact hinv.done_nologin t' ht' hdone sha' email' hparse' hc hprom
          · intro a ha
            rcases hinv.adds_src a ha with h' | h'
            · exact Or.inl h'
            · by_cases he : a.2.1 = email
              · rw [he, hpend] at h'
                injection h' with h2
                cases h2
              · refine Or.inr ?_
                dsimp only
                rw [mapSet_lookup_ne _ _ he]
                exact h'
  · exact hinv

theorem inv_finishLine {paths : List (List String)}
    {cache0 : List (String × String)} {api : String → ApiBehavior} {s : St}
    (hinv : Inv paths cache0 api s) (i : Nat) :
    Inv paths cache0 api (step paths api s (.finishLine i)) := by
  show Inv paths cache0 api (stepFinishLine s i)
  unfold stepFinishLine
  split
  · exact hinv
  · next t heq =>
      have hmem : t ∈ s.tasks := getElemOpt_mem heq
      have htsrc := hinv.task_src t hmem
      split
      · next sha email hpcEq =>
          have htwait := hinv.task_wait t hmem sha email (Or.inr hpcEq)
          have hwf : WfPair paths sha email :=
            wfPair_of_task htsrc.1 htsrc.2 htwait.1
          split
          · next out hset =>
              split
              · -- the request was rejected: response is undefined, return
                refine { hinv with
                  task_src := ?_
                  task_wait := ?_
                  done_hit := ?_
                  done_miss := ?_
                  done_nologin := ?_
                  spawned := ?_ }
                · intro t' ht'
                  rcases List.mem_or_eq_of_mem_set ht' with h' | h'
                  · exact hinv.task_src t' h'
                  · subst h'
                    exact htsrc
                · intro t' ht' sha' email' hpc'
                  rcases List.mem_or_eq_of_mem_set ht' with h' | h'
                  · exact hinv.task_wait t' h' sha' email' hpc'
                  · subst h'
                    rcases hpc' with h' | h' <;> cases h'
                · intro t' ht' hdone sha' email' v hparse' hc
                  rcases List.mem_or_eq_of_mem_set ht' with h' | h'
                  · exact hinv.done_hit t' h' hdone sha' email' v hparse' hc
                  · subst h'
                    dsimp only [setTaskPC] at hparse'
                    rw [htwait.1] at hparse'
                    simp only [Option.some.injEq, Prod.mk.injEq] at hparse'
                    obtain ⟨h3, h4⟩ := hparse'
                    subst h3
                    subst h4
                    rw [htwait.2] at hc
                    cases hc
                · intro t' ht' hdone sha' email' hparse' hc
                  rcases List.mem_or_eq_of_mem_set ht' with h' | h'
                  · exact hinv.done_miss t' h' hdone sha' email' hparse' hc
                  · subst h'
                    dsimp only [setTaskPC] at hparse'
                    rw [htwait.1] at hparse'
                    simp only [Option.some.injEq, Prod.mk.injEq] at hparse'
                    obtain ⟨h3, h4⟩ := hparse'
                    subst h3
                    subst h4
                    exact ⟨none, hset⟩
                · intro t' ht' hdone sha' email' hparse' hc hprom
                  rcases List.mem_or_eq_of_mem_set ht' with h' | h'
                  · exact hinv.done_nologin t' h' hdone sha' email' hparse' hc hprom
                  · subst h'
                    dsimp only [setTaskPC] at hparse' hprom
                    rw [htwait.1] at hparse'
                    simp only [Option.some.injEq, Prod.mk.injEq] at hparse'
                    obtain ⟨h3, h4⟩ := hparse'
                    subst h3
                    subst h4
                    have hprom2 : mapLookup s.prom email =
                        some (PromSt.settled (some none)) := hprom
                    rw [hset] at hprom2
                    simp at hprom2
                · intro q hq line hline
                  have hrw : (s.tasks.set i { t with pc := PC.done }).map
                      (fun t => (t.path, t.line)) =
                      s.tasks.map (fun t => (t.path, t.line)) :=
                    map_set_eq_of_get _ _ heq rfl
                  rw [setTaskPC]
                  dsimp only [setTaskPC]
                  rw [hrw]
                  exact hinv.spawned q hq line hline
              · -- .author.login is not a string: invoke the error callback
                refine { hinv with
                  task_src := ?_
                  task_wait := ?_
                  req_err := ?_
                  err_wf := ?_
                  done_hit := ?_
                  done_miss := ?_
                  done_nologin := ?_
                  spawned := ?_ }
                · intro t' ht'
                  rcases List.mem_or_eq_of_mem_set ht' with h' | h'
                  · exact hinv.task_src t' h'
                  · subst h'
                    exact htsrc
                · intro t' ht' sha' email' hpc'
                  rcases List.mem_or_eq_of_mem_set ht' with h' | h'
                  · exact hinv.task_wait t' h' sha' email' hpc'
                  · subst h'
                    rcases hpc' with h' | h' <;> cases h'
                · intro e
                  dsimp only [setTaskPC]
                  have h0 := hinv.req_err e
                  have hz : countReqErr
                      (s.errors ++ [⟨sha, email, ErrDetail.loginMissing⟩]) e =
                      countReqErr s.errors e := by
                    simp only [countReqErr, List.countP_append, List.countP_cons,
                      List.countP_nil]
                    simp [ErrDetail.isReq]
                  rw [hz, h0]
                · intro en hen
                  rcases List.mem_append.mp hen with h' | h'
                  · exact hinv.err_wf en h'
                  · simp at h'
                    subst h'
                    exact hwf
                · intro t' ht' hdone sha' email' v hparse' hc
                  rcases List.mem_or_eq_of_mem_set ht' with h' | h'
                  · exact hinv.done_hit t' h' hdone sha' email' v hparse' hc
                  · subst h'
                    dsimp only [setTaskPC] at hparse'
                    rw [htwait.1] at hparse'
                    simp only [Option.some.injEq, Prod.mk.injEq] at hparse'
                    obtain ⟨h3, h4⟩ := hparse'
                    subst h3
                    subst h4
                    rw [htwait.2] at hc
                    cases hc
                · intro t' ht' hdone sha' email' hparse' hc
                  rcases List.mem_or_eq_of_mem_set ht' with h' | h'
                  · exact hinv.done_miss t' h' hdone sha' email' hparse' hc
                  · subst h'
                    dsimp only [setTaskPC] at hparse'
                    rw [htwait.1] at hparse'
                    simp only [Option.some.injEq, Prod.mk.injEq] at hparse'
                    obtain ⟨h3, h4⟩ := hparse'
                    subst h3
                    subst h4
                    exact ⟨some none, hset⟩
                · intro t' ht' hdone sha' email' hparse' hc hprom
                  rcases List.mem_or_eq_of_mem_set ht' with h' | h'
                  · obtain ⟨en, hen, hprop⟩ :=
                      hinv.done_nologin t' h' hdone sha' email' hparse' hc hprom
                    exact ⟨en, List.mem_append_left _ hen, hprop⟩
                  · subst h'
                    dsimp only [setTaskPC] at hparse'
                    rw [htwait.1] at hparse'
                    simp only [Option.some.injEq, Prod.mk.injEq] at hparse'
                    obtain ⟨h3, h4⟩ := hparse'
                    subst h3
                    subst h4
                    refine ⟨⟨sha, email, ErrDetail.loginMissing⟩, ?_, rfl, rfl⟩
                    exact List.mem_append_right _ (by simp)
                · intro q hq line hline
                  have hrw : (s.tasks.set i { t with pc := PC.done }).map
                      (fun t => (t.path, t.line)) =
                      s.tasks.map (fun t => (t.path, t.line)) :=
                    map_set_eq_of_get _ _ heq rfl
                  rw [setTaskPC]
                  dsimp only [setTaskPC]
                  rw [hrw]
                  exact hinv.spawned q hq line hline
              · next login =>
                  -- a string login: cache it and add it to the author set
                  refine { hinv with
                    task_src := ?_
                    task_wait := ?_
                    cache0_le := ?_
                    cache_src := ?_
                    done_hit := ?_
                    done_miss := ?_
                    done_nologin := ?_
                    adds_src := ?_
                    spawned := ?_ }
                  · intro t' ht'
                    rcases List.mem_or_eq_of_mem_set ht' with h' | h'
                    · exact hinv.task_src t' h'
                    · subst h'
                      exact htsrc
                  · intro t' ht' sha' email' hpc'
                    rcases List.mem_or_eq_of_mem_set ht' with h' | h'
                    · exact hinv.task_wait t' h' sha' email' hpc'
                    · subst h'
                      rcases hpc' with h' | h' <;> cases h'
                  · intro k v hkv
                    dsimp only [setTaskPC]
                    by_cases hke : k = email
                    · subst hke
                      rw [htwait.2] at hkv
                      cases hkv
                    · rw [mapSet_lookup_ne _ _ hke]
                      exact hinv.cache0_le k v hkv
                  · intro k v hkv
                    dsimp only [setTaskPC] at hkv
                    by_cases hke : k = email
                    · subst hke
                      rw [mapSet_lookup_self] at hkv
                      injection hkv with h2
                      subst h2
                      exact Or.inr hset
                    · rw [mapSet_lookup_ne _ _ hke] at hkv
                      exact hinv.cache_src k v hkv
                  · intro t' ht' hdone sha' email' v hparse' hc
                    rcases List.mem_or_eq_of_mem_set ht' with h' | h'
                    · exact List.mem_append_left _
                        (hinv.done_hit t' h' hdone sha' email' v hparse' hc)
                    · subst h'
                      dsimp only [setTaskPC] at hparse'
                      rw [htwait.1] at hparse'
                      simp only [Option.some.injEq, Prod.mk.injEq] at hparse'
                      obtain ⟨h3, h4⟩ := hparse'
                      subst h3
                      subst h4
                      rw [htwait.2] at hc
                      cases hc
                  · intro t' ht' hdone sha' email' hparse' hc
                    rcases List.mem_or_eq_of_mem_set ht' with h' | h'
                    · exact hinv.done_miss t' h' hdone sha' email' hparse' hc
                    · subst h'
                      dsimp only [setTaskPC] at hparse'
                      rw [htwait.1] at hparse'
                      simp only [Option.some.injEq, Prod.mk.injEq] at hparse'
                      obtain ⟨h3, h4⟩ := hparse'
                      subst h3
                      subst h4
                      exact ⟨some (some login), hset⟩
                  · intro t' ht' hdone sha' email' hparse' hc hprom
                    rcases List.mem_or_eq_of_mem_set ht' with h' | h'
                    · exact hinv.done_nologin t' h' hdone sha' email' hparse' hc hprom
                    · subst h'
                      dsimp only [setTaskPC] at hparse' hprom
                      rw [htwait.1] at hparse'
                      simp only [Option.some.injEq, Prod.mk.injEq] at hparse'
                      obtain ⟨h3, h4⟩ := hparse'
                      subst h3
                      subst h4
                      have hprom2 : mapLookup s.prom email =
                          some (PromSt.settled (some none)) := hprom
                      rw [hset] at hprom2
                      simp at hprom2
                  · intro a ha
                    dsimp only [setTaskPC] at ha ⊢
                    rcases List.mem_append.mp ha with h' | h'
                    · exact hinv.adds_src a h'
                    · simp at h'
                      subst h'
                      exact Or.inr hset
                  · intro q hq line hline
                    have hrw : (s.tasks.set i { t with pc := PC.done }).map
                        (fun t => (t.path, t.line)) =
                        s.tasks.map (fun t => (t.path, t.line)) :=
                      map_set_eq_of_get _ _ heq rfl
                    rw [setTaskPC]
                    dsimp only [setTaskPC]
                    rw [hrw]
                    exact hinv.spawned q hq line hline
          · exact hinv
      · exact hinv

/-- Every reachable state of a run satisfies the invariant. -/
theorem inv_step {paths : List (List String)}
    {cache0 : List (String × String)} {api : String → ApiBehavior} {s : St}
    (hinv : Inv paths cache0 api s) (a : Act) :
    Inv paths cache0 api (step paths api s a) := by
  cases a with
  | startGit p => exact inv_startGit hinv p
  | endGit p => exact inv_endGit hinv p
  | runLine i => exact inv_runLine hinv i
  | runSet i => exact inv_runSet hinv i
  | settle email => exact inv_settle hinv email
  | finishLine i => exact inv_finishLine hinv i

/-- The invariant holds initially. -/
theorem inv_init (paths : List (List String))
    (cache0 : List (String × String)) (api : String → ApiBehavior) :
    Inv paths cache0 api (initSt cache0) := by
  refine {
    git_lt := ?_
    git_nodup := ?_
    gitDone_sub := ?_
    keys_eq := ?_
    keys_nodup := ?_
    prom_email := ?_
    task_src := ?_
    task_wait := ?_
    cache0_le := ?_
    cache_src := ?_
    pending_wf := ?_
    settled_src := ?_
    req_err := ?_
    err_wf := ?_
    done_hit := ?_
    done_miss := ?_
    done_nologin := ?_
    adds_src := ?_
    spawned := ?_ } <;>
    simp [initSt, mapKeys, countReqErr, mapLookup]

/-- The invariant holds after any schedule. -/
theorem inv_run (paths : List (List String)) (api : String → ApiBehavior)
    (cache0 : List (String × String)) (acts : List Act) :
    Inv paths cache0 api (run paths api cache0 acts) := by
  unfold run
  have h : ∀ (l : List Act) (s : St), Inv paths cache0 api s →
      Inv paths cache0 api (l.foldl (step paths api) s) := by
    intro l
    induction l with
    | nil => exact fun s hs => hs
    | cons a rest ih => exact fun s hs => ih _ (inv_step hs a)
  exact h acts _ (inv_init paths cache0 api)

/-! ### Frame and stability lemmas -/

theorem stepRunLine_prom (s : St) (i : Nat) :
    (stepRunLine s i).prom = s.prom := by
  unfold stepRunLine
  split
  · rfl
  · split
    · split
      · rfl
      · split <;> rfl
    · rfl

theorem stepFinishLine_prom (s : St) (i : Nat) :
    (stepFinishLine s i).prom = s.prom := by
  unfold stepFinishLine
  split
  · rfl
  · split
    · split
      · split <;> rfl
      · rfl
    · rfl

theorem stepRunSet_settled {s : St} {i : Nat} {e : String}
    {out : Option (Option String)}
    (h : mapLookup s.prom e = some (.settled out)) :
    mapLookup (stepRunSet s i).prom e = some (.settled out) := by
  unfold stepRunSet
  split
  · exact h
  · next t heq =>
      split
      · next sha email hpc =>
          split
          · exact h
          · next hhas =>
              dsimp only [setTaskPC]
              by_cases he : e = email
              · subst he
                have hz : mapLookup s.prom e = none := by
                  cases hl : mapLookup s.prom e with
                  | none => rfl
                  | some v => exact absurd (by simp [mapHas, hl]) hhas
                rw [h] at hz
                cases hz
              · rw [mapSet_lookup_ne _ _ he]
                exact h
      · exact h

theorem stepSettle_settled {api : String → ApiBehavior} {s : St}
    {email' e : String} {out : Option (Option String)}
    (h : mapLookup s.prom e = some (.settled out)) :
    mapLookup (stepSettle api s email').prom e = some (.settled out) := by
  unfold stepSettle
  split
  · next sha hpend =>
      by_cases he : e = email'
      · subst he
        rw [h] at hpend
        cases hpend
      · split
        · dsimp only
          rw [mapSet_lookup_ne _ _ he]
          exact h
        · dsimp only
          rw [mapSet_lookup_ne _ _ he]
          exact h
  · exact h

/-- A settled `promiseForEmail` entry is never modified by any action:
every awaiting worker observes the same single outcome. -/
theorem step_settled_stable {paths : List (List String)}
    {api : String → ApiBehavior} {s : St} (a : Act) {e : String}
    {out : Option (Option String)}
    (h : mapLookup s.prom e = some (.settled out)) :
    mapLookup (step paths api s a).prom e = some (.settled out) := by
  cases a with
  | startGit p =>
      simp only [step]
      split <;> exact h
  | endGit p =>
      simp only [step]
      split <;> exact h
  | runLine i =>
      show mapLookup (stepRunLine s i).prom e = some (.settled out)
      rw [stepRunLine_prom]
      exact h
  | runSet i =>
      show mapLookup (stepRunSet s i).prom e = some (.settled out)
      exact stepRunSet_settled h
  | settle email' =>
      show mapLookup (stepSettle api s email').prom e = some (.settled out)
      exact stepSettle_settled h
  | finishLine i =>
      show mapLookup (stepFinishLine s i).prom e = some (.settled out)
      rw [stepFinishLine_prom]
      exact h

theorem settled_stable_foldl {paths : List (List String)}
    {api : String → ApiBehavior} (l : List Act) {s : St} {e : String}
    {out : Option (Option String)}
    (h : mapLookup s.prom e = some (.settled out)) :
    mapLookup (l.foldl (step paths api) s).prom e = some (.settled out) := by
  induction l generalizing s with
  | nil => exact h
  | cons a rest ih => exact ih (step_settled_stable a h)

theorem run_append (paths : List (List String)) (api : String → ApiBehavior)
    (cache0 : List (String × String)) (l1 l2 : List Act) :
    run paths api cache0 (l1 ++ l2) =
      l2.foldl (step paths api) (run paths api cache0 l1) := by
  unfold run
  rw [List.foldl_append]

theorem promKeys_subset_uncached {paths : List (List String)}
    {cache0 : List (String × String)} {api : String → ApiBehavior} {s : St}
    (hinv : Inv paths cache0 api s) :
    ∀ e ∈ mapKeys s.prom, e ∈ uncachedEmails paths cache0 := by
  intro e he
  obtain ⟨pr, hpr, rfl⟩ := List.mem_map.mp he
  obtain ⟨⟨sha, hwf⟩, hnone⟩ := hinv.prom_email pr hpr
  unfold uncachedEmails
  refine List.mem_filter.mpr ⟨?_, ?_⟩
  · exact List.mem_dedup.mpr (List.mem_map_of_mem _ hwf)
  · simp [hnone]

theorem promKeys_len_le {paths : List (List String)}
    {cache0 : List (String × String)} {api : String → ApiBehavior} {s : St}
    (hinv : Inv paths cache0 api s) :
    (mapKeys s.prom).length ≤ (uncachedEmails paths cache0).length :=
  (List.Nodup.subperm hinv.keys_nodup
    (fun _ he => promKeys_subset_uncached hinv _ he)).length_le

/-! ### Round-trip lemmas for the cache persistence -/

theorem foldl_mapSet_append (l acc : List (String × String))
    (h : (mapKeys (acc ++ l)).Nodup) :
    l.foldl (fun m p => mapSet m p.1 p.2) acc = acc ++ l := by
  induction l generalizing acc with
  | nil => simp
  | cons p rest ih =>
      obtain ⟨k, v⟩ := p
      have hkeys : mapKeys (acc ++ (k, v) :: rest) =
          mapKeys acc ++ k :: mapKeys rest := by
        simp [mapKeys]
      rw [hkeys] at h
      have hdisj := List.disjoint_of_nodup_append h
      have hk : k ∉ mapKeys acc := fun hmem => hdisj hmem (by simp)
      rw [List.foldl_cons]
      dsimp only
      rw [mapSet_of_not_mem _ hk]
      have h2 : (mapKeys ((acc ++ [(k, v)]) ++ rest)).Nodup := by
        have : (acc ++ [(k, v)]) ++ rest = acc ++ (k, v) :: rest := by simp
        rw [this, hkeys]
        exact h
      rw [ih (acc ++ [(k, v)]) h2]
      simp

theorem mapFromPairs_eq_self {l : List (String × String)}
    (h : (mapKeys l).Nodup) : mapFromPairs l = l := by
  have := foldl_mapSet_append l [] (by simpa using h)
  simpa [mapFromPairs] using this

/-- C3: for every cache (a finite map with unique keys, in insertion order,
including the empty one) and every nonempty path, `writeCache` stores the
persistable pair sequence and `readCache` of the written file returns a map
equal to the original cache, entry for entry and in the same insertion
order. -/
theorem c3_cache_roundtrip (cache : List (String × String)) (p : String)
    (fs : FileSystem) (hnodup : (mapKeys cache).Nodup) (hp : p ≠ "") :
    writeCache cache (some p) fs = .ok (fsWrite fs p (toPersistable cache)) ∧
    readCache (some p) (fsWrite fs p (toPersistable cache)) = .ok cache := by
  constructor
  · simp [writeCache, hp]
  · simp [readCache, hp, fsRead, fsWrite, toPersistable, mapSet_lookup_self,
      mapFromPairs_eq_self hnodup]

/-- Witness for C3 at a concrete two-entry cache and path. -/
theorem c3_witness :
    writeCache [("a@x", "alice"), ("b@x", "bob")] (some ("cache.json")) ⟨[]⟩ =
      .ok (fsWrite ⟨[]⟩ ("cache.json")
        (toPersistable [("a@x", "alice"), ("b@x", "bob")])) ∧
    readCache (some ("cache.json"))
      (fsWrite ⟨[]⟩ ("cache.json")
        (toPersistable [("a@x", "alice"), ("b@x", "bob")])) =
      .ok [("a@x", "alice"), ("b@x", "bob")] :=
  c3_cache_roundtrip _ _ _ (by decide) (by decide)

/-- C10: `readCache` and `writeCache` reject with `'The cache path is
empty.'` when the cache path is missing or the empty string, for every file
system (so before any file operation); for every non-empty path the write
proceeds to the file store and the read proceeds to the file lookup. -/
theorem c10_empty_cache_path (fs : FileSystem)
    (cache : List (String × String)) :
    (∀ path : Option String, path = none ∨ path = some ("") →
      readCache path fs = .error ("The cache path is empty.") ∧
      writeCache cache path fs = .error ("The cache path is empty.")) ∧
    ∀ p : String, p ≠ "" →
      writeCache cache (some p) fs = .ok (fsWrite fs p (toPersistable cache)) ∧
      ∀ c, fsRead fs p = some c → readCache (some p) fs = .ok (mapFromPairs c) := by
  constructor
  · rintro path (rfl | rfl)
    · exact ⟨rfl, rfl⟩
    · exact ⟨by simp [readCache], by simp [writeCache]⟩
  · intro p hp
    refine ⟨by simp [writeCache, hp], ?_⟩
    intro c hcread
    simp [readCache, hp, hcread]

/-- Witness for C10 at concrete paths and file systems. -/
theorem c10_witness :
    readCache none ⟨[]⟩ = .error ("The cache path is empty.") ∧
    writeCache [] (some ("")) ⟨[]⟩ = .error ("The cache path is empty.") ∧
    writeCache [] (some ("c.json")) ⟨[]⟩ =
      .ok (fsWrite ⟨[]⟩ ("c.json") (toPersistable [])) ∧
    readCache (some ("c.json")) ⟨[(("c.json"), [("a@x", "alice")])]⟩ =
      .ok (mapFromPairs [("a@x", "alice")]) :=
  ⟨((c10_empty_cache_path ⟨[]⟩ []).1 none (Or.inl rfl)).1,
   ((c10_empty_cache_path ⟨[]⟩ []).1 (some ("")) (Or.inr rfl)).2,
   ((c10_empty_cache_path ⟨[]⟩ []).2 ("c.json") (by decide)).1,
   (((c10_empty_cache_path ⟨[(("c.json"), [("a@x", "alice")])]⟩ []).2
      ("c.json") (by decide)).2 [("a@x", "alice")] (by decide))⟩

/-- C6: evaluation of `getErrorCallback` at the failing input.  When
`onerror` is left unset (JS `undefined`), the code returns the silent no-op
callback, not `defaultOnError`, because line 62 compares `onerror` with the
*string* `'undefined'`; only that literal string selects `defaultOnError`,
while a supplied function does override. -/
theorem c6_onerror_dispatch_bug :
    getErrorCallback .undef = .noop ∧
    getErrorCallback .undef ≠ .defaultOnError ∧
    getErrorCallback (.strV ("undefined")) = .defaultOnError ∧
    ∀ f, getErrorCallback (.funcV f) = .suppliedFn f := by
  refine ⟨rfl, by decide, rfl, fun f => ?_⟩
  simp [getErrorCallback]

/-- C8 counterexample: the empty string is a falsey token, yet the code
attaches an Authorization header for it (`typeof '' === 'string'`), so "an
explicit null or otherwise falsey token disables credentialed calls" fails
at `token = ''`. -/
theorem c8_counterexample :
    jsFalsey (.jsStr ("")) = true ∧
    authorizationHeader (destructuredToken (some (.jsStr (""))) none) =
      some ("token ") :=
  ⟨rfl, rfl⟩

/-- C8 as amended: the token defaults to the `GITHUB_TOKEN` environment
value when the option is absent or explicitly `undefined`; any non-string
token (`null`, a boolean, a number) yields no Authorization header; any
string token s, including the empty string, yields `token s`. -/
theorem c8_amended_token_header :
    (∀ s, destructuredToken none (some s) = .jsStr s) ∧
    destructuredToken none none = .undef ∧
    (∀ s, destructuredToken (some .undef) (some s) = .jsStr s) ∧
    destructuredToken (some .undef) none = .undef ∧
    (∀ e2, destructuredToken (some .null) e2 = .null) ∧
    (∀ e2 n, destructuredToken (some (.jsNum n)) e2 = .jsNum n) ∧
    (∀ e2 b, destructuredToken (some (.jsBool b)) e2 = .jsBool b) ∧
    (∀ e2 s, destructuredToken (some (.jsStr s)) e2 = .jsStr s) ∧
    authorizationHeader .null = none ∧
    authorizationHeader .undef = none ∧
    (∀ n, authorizationHeader (.jsNum n) = none) ∧
    (∀ b, authorizationHeader (.jsBool b) = none) ∧
    (∀ s, authorizationHeader (.jsStr s) = some (("token ") ++ s)) :=
  ⟨fun _ => rfl, rfl, fun _ => rfl, rfl, fun _ => rfl, fun _ _ => rfl,
   fun _ _ => rfl, fun _ _ => rfl, rfl, rfl, fun _ => rfl, fun _ => rfl,
   fun _ => rfl⟩

/-- C1: in every run (any paths, any resolver behavior, any supplied cache,
any interleaving), the number of commits-API requests issued through
`promiseForEmail` is at most the number of distinct well-formed history
emails not already present in the supplied cache; at most one request is
ever issued per email, and once the shared promise for an email settles,
every later lookup observes that same single outcome. -/
theorem c1_at_most_one_request_per_email (paths : List (List String))
    (api : String → ApiBehavior) (cache0 : List (String × String))
    (acts : List Act) :
    (run paths api cache0 acts).apiStarts.length ≤
      (uncachedEmails paths cache0).length ∧
    ((run paths api cache0 acts).apiStarts.map Prod.fst).Nodup ∧
    ∀ e out acts',
      mapLookup (run paths api cache0 acts).prom e = some (.settled out) →
      mapLookup (run paths api cache0 (acts ++ acts')).prom e =
        some (.settled out) := by
  have hinv := inv_run paths api cache0 acts
  refine ⟨?_, ?_, ?_⟩
  · have h1 : (run paths api cache0 acts).apiStarts.length =
        (mapKeys (run paths api cache0 acts).prom).length := by
      rw [hinv.keys_eq]
      simp
    rw [h1]
    exact promKeys_len_le hinv
  · rw [← hinv.keys_eq]
    exact hinv.keys_nodup
  · intro e out acts' h
    rw [run_append]
    exact settled_stable_foldl acts' h

/-- Witness for C1: the spec's end-to-end scenario, three commits over two
emails, plus stability of the settled outcome under further actions. -/
theorem c1_witness :
    (run [["c1 a@x", "c2 b@x", "c3 a@x"]] apiW []
        (canonicalSched [["c1 a@x", "c2 b@x", "c3 a@x"]])).apiStarts.length ≤
      (uncachedEmails [["c1 a@x", "c2 b@x", "c3 a@x"]] []).length ∧
    mapLookup (run [["c1 a@x", "c2 b@x", "c3 a@x"]] apiW []
        (canonicalSched [["c1 a@x", "c2 b@x", "c3 a@x"]] ++
          [Act.settle ("a@x")])).prom ("a@x") =
      some (.settled (some (some ("alice")))) :=
  ⟨(c1_at_most_one_request_per_email [["c1 a@x", "c2 b@x", "c3 a@x"]] apiW []
      (canonicalSched [["c1 a@x", "c2 b@x", "c3 a@x"]])).1,
   (c1_at_most_one_request_per_email [["c1 a@x", "c2 b@x", "c3 a@x"]] apiW []
      (canonicalSched [["c1 a@x", "c2 b@x", "c3 a@x"]])).2.2 ("a@x")
     (some (some ("alice"))) [Act.settle ("a@x")] (by decide)⟩

/-- C2: for every email E present in the supplied cache before the run, no
commits-API request is ever issued for E under any schedule; and in every
completed run, each well-formed history line carrying E contributes the
cached handle for E to its path's author set. -/
theorem c2_cached_email_skips_resolver (paths : List (List String))
    (api : String → ApiBehavior) (cache0 : List (String × String))
    (acts : List Act) (E v : String)
    (hc : mapLookup cache0 E = some v) :
    (∀ sha, (E, sha) ∉ (run paths api cache0 acts).apiStarts) ∧
    (IsComplete paths (run paths api cache0 acts) →
      ∀ p sha line, p < paths.length → line ∈ paths.getD p [] →
        parseLine line = some (sha, E) →
        (p, E, v) ∈ (run paths api cache0 acts).adds) := by
  have hinv := inv_run paths api cache0 acts
  constructor
  · intro sha hmem
    have hkey : E ∈ (run paths api cache0 acts).apiStarts.map Prod.fst :=
      List.mem_map_of_mem _ hmem
    rw [← hinv.keys_eq] at hkey
    obtain ⟨pr, hpr, rfl⟩ := List.mem_map.mp hkey
    have := (hinv.prom_email pr hpr).2
    rw [hc] at this
    cases this
  · intro hcomp p sha line hp hline hparse
    have hpd : p ∈ (run paths api cache0 acts).gitDone := hcomp.1 p hp
    have hsp := hinv.spawned p hpd line hline
    obtain ⟨t, ht, hteq⟩ := List.mem_map.mp hsp
    have h1 : t.path = p := congrArg Prod.fst hteq
    have h2 : t.line = line := congrArg Prod.snd hteq
    have hd : t.pc = .done := hcomp.2 t ht
    have hres := hinv.done_hit t ht hd sha E v (by rw [h2]; exact hparse) hc
    rw [h1] at hres
    exact hres

/-- Witness for C2: a pre-seeded cache entry for a@x is used for both a@x
commits while only b@x is sent to the resolver. -/
theorem c2_witness :
    ((("a@x" : String), ("c1" : String)) ∉
      (run [["c1 a@x", "c2 b@x"]] apiW [(("a@x"), ("nauuo"))]
        (canonicalSched [["c1 a@x", "c2 b@x"]])).apiStarts) ∧
    ((0 : Nat), (("a@x" : String), ("nauuo" : String))) ∈
      (run [["c1 a@x", "c2 b@x"]] apiW [(("a@x"), ("nauuo"))]
        (canonicalSched [["c1 a@x", "c2 b@x"]])).adds :=
  ⟨(c2_cached_email_skips_resolver [["c1 a@x", "c2 b@x"]] apiW
      [(("a@x"), ("nauuo"))] (canonicalSched [["c1 a@x", "c2 b@x"]])
      ("a@x") ("nauuo") (by decide)).1 ("c1"),
   (c2_cached_email_skips_resolver [["c1 a@x", "c2 b@x"]] apiW
      [(("a@x"), ("nauuo"))] (canonicalSched [["c1 a@x", "c2 b@x"]])
      ("a@x") ("nauuo") (by decide)).2 (by decide) 0 ("c1") ("c1 a@x")
     (by decide) (by decide) (by decide)⟩

/-- C5 counterexample: one completed `cacheFor`-style run over two paths
whose histories share the same line `c9 ghost@x`, with a response lacking a
string `.author.login`; the error callback fires twice for the single
distinct (commit-id, email) pair, not exactly once. -/
theorem c5_counterexample :
    IsComplete [["c9 ghost@x"], ["c9 ghost@x"]]
      (run [["c9 ghost@x"], ["c9 ghost@x"]] apiW []
        (canonicalSched [["c9 ghost@x"], ["c9 ghost@x"]])) ∧
    ((run [["c9 ghost@x"], ["c9 ghost@x"]] apiW []
        (canonicalSched [["c9 ghost@x"], ["c9 ghost@x"]])).errors.countP
      (fun en => en == ⟨"c9", "ghost@x", .loginMissing⟩)) = 2 := by
  constructor
  · decide
  · decide

/-- C5 as amended: request-level failures are reported through the error
callback exactly once per failing email (with the representative commit),
never more: in every run, the number of request-error callback invocations
for an email is 1 if that email's single request was issued and rejected
and 0 otherwise.  (Handle-extraction failures are instead reported once per
processed history line, as the counterexample run shows.) -/
theorem c5_amended_request_error_once_per_email (paths : List (List String))
    (api : String → ApiBehavior) (cache0 : List (String × String))
    (acts : List Act) (e : String) :
    countReqErr (run paths api cache0 acts).errors e =
      if mapLookup (run paths api cache0 acts).prom e =
          some (.settled none) then 1 else 0 :=
  (inv_run paths api cache0 acts).req_err e

/-- C9 counterexample: in a single run over two paths (nothing in the
configuration bounds these numbers), two `git log` invocations execute
simultaneously, and two commits-API requests are later in flight
simultaneously, even though the set-API queue's own concurrency is 1 —
its worker fires the request without awaiting it. -/
theorem c9_counterexample :
    gitInFlight (run [["c1 a@x"], ["c2 b@x"]] apiW []
      [Act.startGit 0, Act.startGit 1]) = 2 ∧
    apiInFlight (run [["c1 a@x"], ["c2 b@x"]] apiW []
      [Act.startGit 0, Act.startGit 1, Act.endGit 0, Act.endGit 1,
       Act.runLine 0, Act.runSet 0, Act.runLine 1, Act.runSet 1]) = 2 := by
  constructor
  · decide
  · decide

/-- C9 as amended: the only bounds on concurrent work are structural — at
most one `git log` per input path is ever in flight, and the number of
in-flight commits-API requests is bounded only by the number of distinct
uncached history emails, not by any configured pool size. -/
theorem c9_amended_inflight_bounds (paths : List (List String))
    (api : String → ApiBehavior) (cache0 : List (String × String))
    (acts : List Act) :
    gitInFlight (run paths api cache0 acts) ≤ paths.length ∧
    apiInFlight (run paths api cache0 acts) ≤
      (uncachedEmails paths cache0).length := by
  have hinv := inv_run paths api cache0 acts
  constructor
  · calc gitInFlight (run paths api cache0 acts) ≤
        (run paths api cache0 acts).gitStarted.length :=
          List.length_filter_le _ _
      _ ≤ (List.range paths.length).length :=
          (List.Nodup.subperm hinv.git_nodup
            (fun p hp => List.mem_range.mpr (hinv.git_lt p hp))).length_le
      _ = paths.length := List.length_range _
  · calc apiInFlight (run paths api cache0 acts) ≤
        (run paths api cache0 acts).prom.length := List.countP_le_length _
      _ = (mapKeys (run paths api cache0 acts).prom).length := by
          simp [mapKeys]
      _ ≤ (uncachedEmails paths cache0).length := promKeys_len_le hinv

theorem getD_eq_getElem_of_lt {α : Type} {l : List α} {i : Nat} (d : α)
    (h : i < l.length) : l.getD i d = l[i] := by
  induction l generalizing i with
  | nil => simp at h
  | cons x xs ih =>
      cases i with
      | zero => rfl
      | succ n =>
          simp at h
          simpa using ih h

theorem wfPair_elim {paths : List (List String)} {sha email : String}
    (h : WfPair paths sha email) :
    ∃ p, p < paths.length ∧ ∃ line ∈ paths.getD p [],
      parseLine line = some (sha, email) := by
  unfold WfPair historyPairs at h
  rw [List.mem_flatten] at h
  obtain ⟨l, hl, hpair⟩ := h
  rw [List.mem_map] at hl
  obtain ⟨ls, hls, rfl⟩ := hl
  rw [List.mem_iff_getElem] at hls
  obtain ⟨p, hp, hpeq⟩ := hls
  rw [List.mem_filterMap] at hpair
  obtain ⟨line, hline, hparse⟩ := hpair
  refine ⟨p, hp, line, ?_, hparse⟩
  rw [getD_eq_getElem_of_lt [] hp, hpeq]
  exact hline

/-- C4: when the Identity-Resolver step fails for every commit carrying an
email E (rejected request or no string `.author.login`), and E is not in the
supplied cache, then in every completed run the error callback was invoked
with E and one of its (well-formed) commits, E was written neither into the
cache nor into any author set, the supplied cache entries all survive, and
the run nevertheless completed. -/
theorem c4_resolver_failure_recovered (paths : List (List String))
    (api : String → ApiBehavior) (cache0 : List (String × String))
    (acts : List Act) (E : String)
    (hc : mapLookup cache0 E = none)
    (hfail : ∀ sha, WfPair paths sha E → apiFails (api sha) = true)
    (hex : ∃ sha, WfPair paths sha E)
    (hcomp : IsComplete paths (run paths api cache0 acts)) :
    (∃ en ∈ (run paths api cache0 acts).errors,
        en.email = E ∧ WfPair paths en.sha E) ∧
    mapLookup (run paths api cache0 acts).cache E = none ∧
    (∀ p v, (p, E, v) ∉ (run paths api cache0 acts).adds) ∧
    ∀ k v, mapLookup cache0 k = some v →
      mapLookup (run paths api cache0 acts).cache k = some v := by
  have hinv := inv_run paths api cache0 acts
  have hnosuccess : ∀ login,
      mapLookup (run paths api cache0 acts).prom E ≠
        some (.settled (some (some login))) := by
    intro login hlook
    obtain ⟨sha, hwf, hout⟩ := hinv.settled_src E _ hlook
    have hf := hfail sha hwf
    cases hb : api sha with
    | reject err =>
        rw [hb] at hout
        simp [settleOut] at hout
    | respond lo =>
        rw [hb] at hout
        simp [settleOut] at hout
        subst hout
        rw [hb] at hf
        simp [apiFails] at hf
  refine ⟨?_, ?_, ?_, hinv.cache0_le⟩
  · obtain ⟨sha0, hwf0⟩ := hex
    obtain ⟨p, hp, line, hline, hparse⟩ := wfPair_elim hwf0
    have hpd : p ∈ (run paths api cache0 acts).gitDone := hcomp.1 p hp
    obtain ⟨t, ht, hteq⟩ := List.mem_map.mp (hinv.spawned p hpd line hline)
    have h2 : t.line = line := congrArg Prod.snd hteq
    have hd : t.pc = .done := hcomp.2 t ht
    obtain ⟨out, hout⟩ := hinv.done_miss t ht hd sha0 E
      (by rw [h2]; exact hparse) hc
    cases out with
    | none =>
        have hcount := hinv.req_err E
        rw [hout, if_pos rfl] at hcount
        have hpos : 0 < countReqErr (run paths api cache0 acts).errors E := by
          rw [hcount]
          exact Nat.one_pos
        unfold countReqErr at hpos
        rw [List.countP_pos] at hpos
        obtain ⟨en, hen, hpred⟩ := hpos
        rw [Bool.and_eq_true, beq_iff_eq] at hpred
        refine ⟨en, hen, hpred.1, ?_⟩
        have hwfe := hinv.err_wf en hen
        rw [hpred.1] at hwfe
        exact hwfe
    | some lo =>
        cases lo with
        | none =>
            obtain ⟨en, hen, heq, _⟩ := hinv.done_nologin t ht hd sha0 E
              (by rw [h2]; exact hparse) hc hout
            refine ⟨en, hen, heq, ?_⟩
            have hwfe := hinv.err_wf en hen
            rw [heq] at hwfe
            exact hwfe
        | some login => exact absurd hout (hnosuccess login)
  · cases hl : mapLookup (run paths api cache0 acts).cache E with
    | none => rfl
    | some v =>
        rcases hinv.cache_src E v hl with h' | h'
        · rw [hc] at h'
          cases h'
        · exact absurd h' (hnosuccess v)
  · intro p v hmem
    rcases hinv.adds_src _ hmem with h' | h'
    · dsimp only at h'
      rw [hc] at h'
      cases h'
    · dsimp only at h'
      exact absurd h' (hnosuccess v)

/-- Witness for C4: ghost@x fails handle extraction while a@x still
resolves; the completed run reports ghost@x, omits it everywhere, and the
author set still receives alice. -/
theorem c4_witness :
    (∃ en ∈ (run [["c9 ghost@x", "c1 a@x"]] apiW []
        (canonicalSched [["c9 ghost@x", "c1 a@x"]])).errors,
      en.email = ("ghost@x") ∧
        WfPair [["c9 ghost@x", "c1 a@x"]] en.sha ("ghost@x")) ∧
    mapLookup (run [["c9 ghost@x", "c1 a@x"]] apiW []
      (canonicalSched [["c9 ghost@x", "c1 a@x"]])).cache ("ghost@x") = none ∧
    (∀ p v, (p, ("ghost@x" : String), v) ∉
      (run [["c9 ghost@x", "c1 a@x"]] apiW []
        (canonicalSched [["c9 ghost@x", "c1 a@x"]])).adds) ∧
    ((0 : Nat), (("a@x" : String), ("alice" : String))) ∈
      (run [["c9 ghost@x", "c1 a@x"]] apiW []
        (canonicalSched [["c9 ghost@x", "c1 a@x"]])).adds := by
  have h := c4_resolver_failure_recovered [["c9 ghost@x", "c1 a@x"]] apiW []
    (canonicalSched [["c9 ghost@x", "c1 a@x"]]) ("ghost@x") (by decide)
    (fun sha hw => by
      have hmem : (sha, ("ghost@x" : String)) ∈
          ([("c9", "ghost@x"), ("c1", "a@x")] : List (String × String)) := by
        have hrw : historyPairs [["c9 ghost@x", "c1 a@x"]] =
            [("c9", "ghost@x"), ("c1", "a@x")] := by decide
        rw [WfPair, hrw] at hw
        exact hw
      simp only [List.mem_cons, List.not_mem_nil, or_false,
        Prod.mk.injEq] at hmem
      rcases hmem with ⟨h3, _⟩ | ⟨_, h4⟩
      · subst h3
        decide
      · exact absurd h4 (by decide))
    ⟨("c9"), by decide⟩ (by decide)
  exact ⟨h.1, h.2.1, h.2.2.1, by decide⟩

/-! ### The repository-slug pattern -/

theorem takeWhile_append_all {p : Char → Bool} {a b : List Char} {c : Char}
    (ha : ∀ x ∈ a, p x = true) (hc : p c = false) :
    (a ++ c :: b).takeWhile p = a := by
  induction a with
  | nil => simp [List.takeWhile_cons, hc]
  | cons x xs ih =>
      have hx : p x = true := ha x (List.mem_cons_self x xs)
      simp [List.takeWhile_cons, hx,
        ih (fun y hy => ha y (List.mem_cons_of_mem _ hy))]

theorem dropWhile_append_all {p : Char → Bool} {a b : List Char} {c : Char}
    (ha : ∀ x ∈ a, p x = true) (hc : p c = false) :
    (a ++ c :: b).dropWhile p = c :: b := by
  induction a with
  | nil => simp [List.dropWhile_cons, hc]
  | cons x xs ih =>
      have hx : p x = true := ha x (List.mem_cons_self x xs)
      simp [List.dropWhile_cons, hx,
        ih (fun y hy => ha y (List.mem_cons_of_mem _ hy))]

theorem slugChar_slash : slugChar '/' = false := by decide

/-- The regex embedded in `repoMatches` recognizes exactly the spec's slug
language: two nonempty runs of `[A-Za-z0-9_.-]` joined by a single `/`. -/
theorem repoMatches_iff (repo : String) :
    repoMatches repo = true ↔ SlugSpec repo := by
  unfold repoMatches SlugSpec
  constructor
  · intro h
    split at h
    · next rest hdrop =>
        simp only [Bool.and_eq_true, Bool.not_eq_true'] at h
        obtain ⟨⟨h1, h2⟩, h3⟩ := h
        refine ⟨repo.data.takeWhile slugChar, rest, ?_, ?_, ?_, ?_, ?_⟩
        · intro hnil
          rw [hnil] at h1
          simp at h1
        · intro hnil
          rw [hnil] at h2
          simp at h2
        · intro c hc
          exact List.mem_takeWhile_imp hc
        · intro c hc
          exact List.all_eq_true.mp h3 c hc
        · conv_lhs => rw [← List.takeWhile_append_dropWhile slugChar repo.data]
          rw [hdrop]
    · cases h
  · rintro ⟨a, b, ha, hb, hasl, hbsl, heq⟩
    have hdrop : repo.data.dropWhile slugChar = '/' :: b := by
      rw [heq]
      exact dropWhile_append_all hasl slugChar_slash
    have htake : repo.data.takeWhile slugChar = a := by
      rw [heq]
      exact takeWhile_append_all hasl slugChar_slash
    rw [hdrop]
    simp only [htake]
    simp [List.isEmpty_iff, ha, hb, List.all_eq_true]
    exact fun c hc => hbsl c hc

/-- C7: `getAuthors` and `cacheFor` validate the repository identifier
before any work: for every repo outside the slug language the result is the
synchronous configuration error and no run happens; for every repo inside
it the check passes and the run is performed. -/
theorem c7_repo_validation (repo : String) (paths : List (List String))
    (lines : List String) (api : String → ApiBehavior)
    (cache0 : List (String × String)) (acts : List Act) :
    (¬ SlugSpec repo →
      cacheForRun repo paths api acts =
        .error ("Invalid repository name: " ++ repo) ∧
      getAuthorsRun repo lines api cache0 acts =
        .error ("Invalid repository name: " ++ repo)) ∧
    (SlugSpec repo →
      cacheForRun repo paths api acts = .ok (run paths api [] acts) ∧
      getAuthorsRun repo lines api cache0 acts =
        .ok (run [lines] api cache0 acts)) := by
  constructor
  · intro hns
    have hm : repoMatches repo = false := by
      cases hmm : repoMatches repo with
      | false => rfl
      | true => exact absurd ((repoMatches_iff repo).mp hmm) hns
    constructor <;>
      simp [cacheForRun, getAuthorsRun, checkRepo, hm, Except.map]
  · intro hs
    have hm : repoMatches repo = true := (repoMatches_iff repo).mpr hs
    constructor <;>
      simp [cacheForRun, getAuthorsRun, checkRepo, hm, Except.map]

/-- Witness for C7: a repo with a space is rejected with the configuration
error and no run; a well-formed owner/name repo is accepted. -/
theorem c7_witness :
    cacheForRun ("bad repo") [] apiW [] =
      .error ("Invalid repository name: " ++ ("bad repo")) ∧
    cacheForRun ("ouuan/github-file-authors") [["c1 a@x"]] apiW
      (canonicalSched [["c1 a@x"]]) =
      .ok (run [["c1 a@x"]] apiW [] (canonicalSched [["c1 a@x"]])) :=
  ⟨((c7_repo_validation ("bad repo") [] [] apiW [] []).1
      (fun hs => by
        have hm := (repoMatches_iff ("bad repo")).mpr hs
        rw [show repoMatches ("bad repo") = false from by decide] at hm
        cases hm)).1,
   ((c7_repo_validation ("ouuan/github-file-authors") [["c1 a@x"]] [] apiW []
      (canonicalSched [["c1 a@x"]])).2
      ((repoMatches_iff ("ouuan/github-file-authors")).mp (by decide))).1⟩

end GithubFileAuthors
